import Mathlib

/-
Verification of the ULM binary archive storage engine and two repository
helpers (ase/db/cli.py `cut`, ase/spacegroup/symmetrize.py `FixSymmetry`).

The ULM implementation (ase/io/ulm.py) is not part of the source tree here;
only its test suite (ase/test/fio/test_ulm.py) is.  The storage engine is
therefore modelled from the specification: a byte-level codec for scalars,
strings, nested mappings and array references; frames laid out as
[attribute block][array payloads][index record]; index records chained
backwards by "previous index offset" with sentinel 0; a writer state machine
with write/add_array/fill/sync/close; a reader that follows the index chain;
lazy array proxies; and the selective-copy utility.  Integers, offsets and
lengths are fixed-width 8-byte little-endian fields; characters are 4-byte
fields; array elements are opaque 64-bit words (for float dtypes the word is
the IEEE-754 bit pattern, so round-trips are bit-for-bit).
-/

set_option maxRecDepth 4000

namespace Ulm

/-- Fixed-width little-endian encoding of a natural number in `k` bytes
(stores `n mod 256^k`). -/
def encNat : Nat → Nat → List Nat
  | 0, _ => []
  | k+1, n => n % 256 :: encNat k (n / 256)

/-- Fixed-width little-endian decoding of `k` bytes; fails when fewer than
`k` bytes remain. -/
def decNat : Nat → List Nat → Option (Nat × List Nat)
  | 0, bs => some (0, bs)
  | _+1, [] => none
  | k+1, b :: bs =>
    match decNat k bs with
    | some (v, rest) => some (b + 256 * v, rest)
    | none => none

/-- Modelled from the spec: integers use a fixed-width (8-byte, two's
complement) binary representation. -/
def encInt (i : Int) : List Nat :=
  encNat 8 (i % 18446744073709551616).toNat

/-- Decode a fixed-width 8-byte two's-complement integer. -/
def decInt (bs : List Nat) : Option (Int × List Nat) :=
  match decNat 8 bs with
  | some (n, rest) =>
    some ((if n < 9223372036854775808 then (n : Int)
           else (n : Int) - 18446744073709551616), rest)
  | none => none

/-- Decode `k` consecutive fixed-width integers. -/
def decInts : Nat → List Nat → Option (List Int × List Nat)
  | 0, bs => some ([], bs)
  | k+1, bs =>
    match decInt bs with
    | some (i, rest) =>
      match decInts k rest with
      | some (is, rest2) => some (i :: is, rest2)
      | none => none
    | none => none

/-- Decode `k` consecutive fixed-width naturals (array shape dimensions). -/
def decNats : Nat → List Nat → Option (List Nat × List Nat)
  | 0, bs => some ([], bs)
  | k+1, bs =>
    match decNat 8 bs with
    | some (n, rest) =>
      match decNats k rest with
      | some (ns, rest2) => some (n :: ns, rest2)
      | none => none
    | none => none

/-- Characters are stored as fixed-width 4-byte code points. -/
def encChars (cs : List Char) : List Nat :=
  cs.flatMap (fun c => encNat 4 c.toNat)

/-- Decode `k` fixed-width 4-byte characters. -/
def decChars : Nat → List Nat → Option (List Char × List Nat)
  | 0, bs => some ([], bs)
  | k+1, bs =>
    match decNat 4 bs with
    | some (n, rest) =>
      match decChars k rest with
      | some (cs, rest2) => some (Char.ofNat n :: cs, rest2)
      | none => none
    | none => none

/-- Modelled from the spec: strings use a length-prefixed encoding. -/
def encStr (s : String) : List Nat :=
  encNat 8 s.length ++ encChars s.data

/-- Decode a length-prefixed string. -/
def decStr (bs : List Nat) : Option (String × List Nat) :=
  match decNat 8 bs with
  | some (n, rest) =>
    match decChars n rest with
    | some (cs, rest2) => some (String.mk cs, rest2)
    | none => none
  | none => none

/-- Element kind of a stored array (the spec's fixed set of numeric kinds). -/
inductive Dtype where
  | int64
  | float64
deriving DecidableEq

/-- Tag byte of a dtype. -/
def Dtype.toByte : Dtype → Nat
  | .int64 => 0
  | .float64 => 1

/-- Decode a dtype tag byte; unknown tags are a format error. -/
def dtypeOfByte : Nat → Option Dtype
  | 0 => some .int64
  | 1 => some .float64
  | _ => none

/-- Modelled from the spec: a frame value is a scalar (integer, float,
boolean, string, null), a nested key-ordered mapping, or an array
(shape, dtype, element words).  Float scalars and float array elements are
carried as their 64-bit words, so equality of `Value`s is the spec's
bit-for-bit equality. -/
inductive Value where
  | int (i : Int)
  | float (bits : Int)
  | bool (b : Bool)
  | null
  | str (s : String)
  | dict (kvs : List (String × Value))
  | arr (dtype : Dtype) (shape : List Nat) (data : List Int)

/-- A decoded value as seen by the reader: identical to `Value` except that
arrays are lazy references (absolute payload offset and byte length), never
materialized element data. -/
inductive RValue where
  | int (i : Int)
  | float (bits : Int)
  | bool (b : Bool)
  | null
  | str (s : String)
  | dict (kvs : List (String × RValue))
  | arr (dtype : Dtype) (shape : List Nat) (off : Nat) (len : Nat)

/-- A frame is an ordered mapping from keys to values. -/
abbrev Frame := List (String × Value)

/-- A decoded frame. -/
abbrev RFrame := List (String × RValue)

mutual
/-- Number of nodes of a value (used as decoder fuel bound). -/
def sizeV : Value → Nat
  | .dict kvs => 1 + sizeKVs kvs
  | _ => 1
/-- Number of nodes of a key-value list. -/
def sizeKVs : List (String × Value) → Nat
  | [] => 0
  | (_, v) :: rest => 1 + sizeV v + sizeKVs rest
end

/-- An integer representable in a fixed-width 64-bit field. -/
def wfInt (i : Int) : Bool :=
  decide (-9223372036854775808 ≤ i) && decide (i < 9223372036854775808)

mutual
/-- Well-formedness of a value for the 64-bit fixed-width format: integers
fit in 64 bits and every count/length/dimension fits in an 8-byte field. -/
def wfV : Value → Bool
  | .int i => wfInt i
  | .float w => wfInt w
  | .bool _ => true
  | .null => true
  | .str s => decide (s.length < 18446744073709551616)
  | .dict kvs => decide (kvs.length < 18446744073709551616) && wfKVs kvs
  | .arr _ shape data =>
    decide (shape.length < 18446744073709551616) &&
    shape.all (fun d => decide (d < 18446744073709551616)) &&
    decide (8 * data.length < 18446744073709551616) &&
    data.all wfInt
/-- Well-formedness of a key-value list. -/
def wfKVs : List (String × Value) → Bool
  | [] => true
  | (k, v) :: rest =>
    decide (k.length < 18446744073709551616) && wfV v && wfKVs rest
end

/-- A well-formed frame. -/
def wfFrame (f : Frame) : Bool :=
  decide (f.length < 18446744073709551616) && wfKVs f

/-- A well-formed frame sequence. -/
def wfFrames (fs : List Frame) : Bool := fs.all wfFrame

mutual
/-- Modelled from the spec's Binary Layout Codec: encode a value into its
attribute-block bytes (first component) and its raw array payload bytes
(second component).  `rel` is the offset within the frame's payload region
at which this value's payloads begin; array references store that relative
offset and their byte length in the attribute block, while the payload
bytes go to the payload region.  Every compound value is preceded by a
count, so the encoding is self-delimiting. -/
def encVal (rel : Nat) : Value → List Nat × List Nat
  | .null => ([0], [])
  | .bool b => ([1, if b then 1 else 0], [])
  | .int i => (2 :: encInt i, [])
  | .str s => (3 :: encStr s, [])
  | .dict kvs =>
    let bp := encKVs rel kvs
    (4 :: (encNat 8 kvs.length ++ bp.1), bp.2)
  | .arr dt shape data =>
    (5 :: dt.toByte :: (encNat 8 shape.length ++ shape.flatMap (encNat 8) ++
       encNat 8 rel ++ encNat 8 (8 * data.length)),
     data.flatMap encInt)
  | .float w => (6 :: encInt w, [])
/-- Encode a key-value list, threading the payload offset left to right. -/
def encKVs (rel : Nat) : List (String × Value) → List Nat × List Nat
  | [] => ([], [])
  | (k, v) :: rest =>
    let vb := encVal rel v
    let rb := encKVs (rel + vb.2.length) rest
    (encStr k ++ vb.1 ++ rb.1, vb.2 ++ rb.2)
end

mutual
/-- The reader image of a written value: arrays become lazy references at
absolute offset `payBase + rel`. -/
def toRVal (payBase rel : Nat) : Value → RValue
  | .int i => .int i
  | .float w => .float w
  | .bool b => .bool b
  | .null => .null
  | .str s => .str s
  | .dict kvs => .dict (toRKVs payBase rel kvs)
  | .arr dt shape data => .arr dt shape (payBase + rel) (8 * data.length)
/-- Reader image of a key-value list (offsets threaded as in `encKVs`). -/
def toRKVs (payBase rel : Nat) : List (String × Value) → List (String × RValue)
  | [] => []
  | (k, v) :: rest =>
    (k, toRVal payBase rel v) :: toRKVs payBase (rel + (encVal rel v).2.length) rest
end

mutual
/-- Decode one value from an attribute block.  `payBase` is the absolute
file offset of the frame's payload region; `fuel` bounds recursion depth
(any fuel at least the encoded size suffices).  Unknown tags and truncated
buffers are decode failures (the spec's FormatError/TruncatedDataError). -/
def decVal (payBase : Nat) : Nat → List Nat → Option (RValue × List Nat)
  | 0, _ => none
  | fuel+1, bs =>
    match bs with
    | 0 :: r => some (.null, r)
    | 1 :: b :: r => some (.bool (b == 1), r)
    | 2 :: r =>
      match decInt r with
      | some (i, r2) => some (.int i, r2)
      | none => none
    | 3 :: r =>
      match decStr r with
      | some (s, r2) => some (.str s, r2)
      | none => none
    | 4 :: r =>
      match decNat 8 r with
      | some (n, r2) =>
        match decKVs payBase fuel n r2 with
        | some (kvs, r3) => some (.dict kvs, r3)
        | none => none
      | none => none
    | 5 :: db :: r =>
      match dtypeOfByte db with
      | some dt =>
        match decNat 8 r with
        | some (nd, r2) =>
          match decNats nd r2 with
          | some (shape, r3) =>
            match decNat 8 r3 with
            | some (rel, r4) =>
              match decNat 8 r4 with
              | some (len, r5) => some (.arr dt shape (payBase + rel) len, r5)
              | none => none
            | none => none
          | none => none
        | none => none
      | none => none
    | 6 :: r =>
      match decInt r with
      | some (w, r2) => some (.float w, r2)
      | none => none
    | _ => none
/-- Decode `n` key-value pairs. -/
def decKVs (payBase : Nat) : Nat → Nat → List Nat → Option (List (String × RValue) × List Nat)
  | 0, _, _ => none
  | _+1, 0, bs => some ([], bs)
  | fuel+1, n+1, bs =>
    match decStr bs with
    | some (k, r) =>
      match decVal payBase fuel r with
      | some (v, r2) =>
        match decKVs payBase fuel n r2 with
        | some (kvs, r3) => some ((k, v) :: kvs, r3)
        | none => none
      | none => none
    | none => none
end

mutual
/-- Materialize a decoded value: array references are resolved by reading
their byte range from the file and decoding the fixed-width words. -/
def matVal (file : List Nat) : RValue → Option Value
  | .int i => some (.int i)
  | .float w => some (.float w)
  | .bool b => some (.bool b)
  | .null => some (.null)
  | .str s => some (.str s)
  | .dict kvs =>
    match matKVs file kvs with
    | some l => some (.dict l)
    | none => none
  | .arr dt shape off len =>
    match decInts (len / 8) ((file.drop off).take len) with
    | some (data, []) => some (.arr dt shape data)
    | _ => none
/-- Materialize a decoded key-value list. -/
def matKVs (file : List Nat) : List (String × RValue) → Option (List (String × Value))
  | [] => some []
  | (k, v) :: rest =>
    match matVal file v with
    | some v2 =>
      match matKVs file rest with
      | some l => some ((k, v2) :: l)
      | none => none
    | none => none
end

/-- Fixed-size archive header: magic tag "ULM", format version 1,
byte-order flag 0 (little-endian), padding to 8 bytes. -/
def headerBytes : List Nat := [85, 76, 77, 1, 0, 0, 0, 0]

/-- Attribute block of a frame: the encoding of its key-value mapping with
payload offsets relative to the frame's payload region. -/
def frameAB (f : Frame) : List Nat := (encVal 0 (.dict f)).1

/-- Payload region of a frame: all array payload bytes in key order. -/
def framePay (f : Frame) : List Nat := (encVal 0 (.dict f)).2

/-- Offset of the frame's index record relative to the frame start. -/
def frameIdxRel (f : Frame) : Nat := (frameAB f).length + (framePay f).length

/-- Total encoded length of one frame (attribute block, payloads, and the
32-byte index record). -/
def frameLen (f : Frame) : Nat := frameIdxRel f + 32

/-- Modelled from the spec: the on-disk bytes of a single frame placed at
absolute offset `atOff`, whose index record back-links to the previous
frame's index record at `prev` (0 is the first-frame sentinel).  Layout:
attribute block, then array payloads, then the index record
[previous index offset][attribute offset][attribute length][own offset];
the record's last field makes the final frame's index locatable from the
file tail. -/
def frameBytesAt (atOff prev : Nat) (f : Frame) : List Nat :=
  frameAB f ++ framePay f ++
  (encNat 8 prev ++ encNat 8 atOff ++ encNat 8 (frameAB f).length ++
   encNat 8 (atOff + frameIdxRel f))

/-- Archive bytes: `acc` already written, `prev` the index offset of the
last committed frame, followed by the encodings of `fs`. -/
def archAux (acc : List Nat) (prev : Nat) : List Frame → List Nat
  | [] => acc
  | f :: fs => archAux (acc ++ frameBytesAt acc.length prev f) (acc.length + frameIdxRel f) fs

/-- Canonical archive bytes of a frame sequence: header, then the frames,
each back-linked to its predecessor. -/
def archBytes (fs : List Frame) : List Nat := archAux headerBytes 0 fs

/-- Index offset of the last frame when `fs` is laid out starting at byte
offset `base` with preceding index offset `prev`. -/
def lastIdxAux (base prev : Nat) : List Frame → Nat
  | [] => prev
  | f :: fs => lastIdxAux (base + frameLen f) (base + frameIdxRel f) fs

/-- Map a fallible function over a list, failing when any element fails. -/
def tryMap {α β : Type} (f : α → Option β) : List α → Option (List β)
  | [] => some []
  | a :: tl =>
    match f a with
    | some b =>
      match tryMap f tl with
      | some bs => some (b :: bs)
      | none => none
    | none => none

/-- Errors raised by writer misuse (spec section 7). -/
inductive UlmError where
  | overfill
  | sequence
  | shape
  | incomplete
deriving DecidableEq

/-- A buffered attribute of the current unsynced frame: either an
immediately encoded value or a slot referring to the n-th array declared
in this frame via add_array. -/
inductive Buf where
  | val (v : Value)
  | slot (n : Nat)

/-- An array declared by add_array and filled incrementally in row chunks. -/
structure CurArr where
  shape : List Nat
  dtype : Dtype
  rows : List (List Int)

/-- Number of elements in one row (product of the non-leading dimensions). -/
def rowWidth (shape : List Nat) : Nat := shape.tail.prod

/-- A declared array is complete when all leading-dimension rows are filled. -/
def CurArr.isComplete (c : CurArr) : Bool := c.rows.length == c.shape.headD 0

/-- Modelled from the spec's Archive Writer: bytes written so far, the
index offset of the last committed frame (0 before the first sync), the
committed frame count, the buffered attributes of the current unsynced
frame, the completed declared arrays of this frame, and the array
currently being filled. -/
structure Writer where
  data : List Nat
  prevIdx : Nat
  nitems : Nat
  buffered : List (String × Buf)
  done : List CurArr
  cur : Option CurArr

/-- A fresh writer on a new file: the header is written once. -/
def openW : Writer := ⟨headerBytes, 0, 0, [], [], none⟩

/-- write(key=value, ...): buffer attributes for the current frame. -/
def Writer.write (w : Writer) (kvs : Frame) : Writer :=
  { w with buffered := w.buffered ++ kvs.map (fun kv => (kv.1, Buf.val kv.2)) }

/-- add_array(key, shape, dtype): declare an array slot in the current
frame for incremental filling; fails with SequenceError when the
previously declared array is not yet fully filled. -/
def Writer.addArray (w : Writer) (key : String) (shape : List Nat) (dt : Dtype) :
    Except UlmError Writer :=
  match w.cur with
  | none =>
    .ok { w with cur := some ⟨shape, dt, []⟩,
                 buffered := w.buffered ++ [(key, .slot w.done.length)] }
  | some c =>
    if c.isComplete then
      .ok { w with done := w.done ++ [c], cur := some ⟨shape, dt, []⟩,
                   buffered := w.buffered ++ [(key, .slot (w.done.length + 1))] }
    else .error .sequence

/-- fill(chunk): append the chunk's rows to the most recently declared
array, strictly in order; OverfillError when the chunk would exceed the
declared leading dimension, ShapeError on a row width mismatch,
SequenceError when no array is awaiting data.  On error no state is
produced, so the writer's declared-array state is unchanged. -/
def Writer.fill (w : Writer) (chunk : List (List Int)) : Except UlmError Writer :=
  match w.cur with
  | none => .error .sequence
  | some c =>
    if c.shape.headD 0 < c.rows.length + chunk.length then .error .overfill
    else if chunk.all (fun row => row.length == rowWidth c.shape) then
      .ok { w with cur := some { c with rows := c.rows ++ chunk } }
    else .error .shape

/-- Python-style fill: on error the writer is returned unchanged alongside
the raised error. -/
def Writer.fillS (w : Writer) (chunk : List (List Int)) : Writer × Option UlmError :=
  match w.fill chunk with
  | .ok w2 => (w2, none)
  | .error e => (w, some e)

/-- All arrays declared in the current frame, in declaration order. -/
def Writer.arrsOf (w : Writer) : List CurArr := w.done ++ w.cur.toList

/-- Resolve the buffered attributes of the current frame into values,
flattening each declared array's rows into its payload words. -/
def Writer.assemble (w : Writer) : Option Frame :=
  tryMap (fun kb =>
    match kb.2 with
    | .val v => some (kb.1, v)
    | .slot n =>
      match w.arrsOf[n]? with
      | some c => some (kb.1, Value.arr c.dtype c.shape c.rows.flatten)
      | none => none) w.buffered

/-- sync(): finalize the current frame (attribute block, payload bytes,
index record back-linked to the previous frame) and start a new empty
frame; IncompleteArrayError when a declared array is not fully filled. -/
def Writer.sync (w : Writer) : Except UlmError Writer :=
  if w.arrsOf.all CurArr.isComplete then
    match w.assemble with
    | some attrs =>
      .ok ⟨w.data ++ frameBytesAt w.data.length w.prevIdx attrs,
           w.data.length + frameIdxRel attrs, w.nitems + 1, [], [], none⟩
    | none => .error .shape
  else .error .incomplete

/-- close(): implicit sync of any pending frame, then release; returns the
final file bytes. -/
def Writer.close (w : Writer) : Except UlmError (List Nat) :=
  if w.buffered.isEmpty && w.done.isEmpty && w.cur.isNone then .ok w.data
  else
    match w.sync with
    | .ok w2 => .ok w2.data
    | .error e => .error e

/-- Run one write+sync cycle per frame. -/
def runFrames (w : Writer) : List Frame → Except UlmError Writer
  | [] => .ok w
  | f :: fs =>
    match (w.write f).sync with
    | .ok w2 => runFrames w2 fs
    | .error e => .error e

/-- Write a sequence of frames with one write+sync per frame, then close. -/
def writeArchive (fs : List Frame) : Except UlmError (List Nat) :=
  match runFrames openW fs with
  | .ok w => w.close
  | .error e => .error e


/-- Modelled from the spec's Archive Reader: the file bytes, the decoded
frames in creation order, and the frame targeted by default attribute
access. -/
structure Reader where
  file : List Nat
  frames : List RFrame
  index : Nat

/-- Read one index record at `idxOff`: previous index offset, attribute
block offset, attribute block length. -/
def readRecord (file : List Nat) (idxOff : Nat) : Option (Nat × Nat × Nat) :=
  match decNat 8 (file.drop idxOff) with
  | some (prev, r) =>
    match decNat 8 r with
    | some (attrOff, r2) =>
      match decNat 8 r2 with
      | some (attrLen, _) => some (prev, attrOff, attrLen)
      | none => none
    | none => none
  | none => none

/-- Follow the index chain backwards from `idxOff`, collecting
(attribute offset, attribute length) records in frame creation order;
`fuel` bounds the walk (the file length always suffices). -/
def readChain (file : List Nat) : Nat → Nat → Option (List (Nat × Nat))
  | 0, _ => none
  | fuel+1, idxOff =>
    match readRecord file idxOff with
    | some (prev, attrOff, attrLen) =>
      if prev == 0 then some [(attrOff, attrLen)]
      else
        match readChain file fuel prev with
        | some recs => some (recs ++ [(attrOff, attrLen)])
        | none => none
    | none => none

/-- Decode one frame's attribute block given its index record; the frame's
payload region begins right after the attribute block. -/
def decFrame (file : List Nat) (rec : Nat × Nat) : Option RFrame :=
  match decVal (rec.1 + rec.2) (rec.2 + 1) ((file.drop rec.1).take rec.2) with
  | some (.dict kvs, []) => some kvs
  | _ => none

/-- open(path): check the header, locate the last index record from the
file tail, follow the chain to enumerate all frames, and decode each
attribute block.  Default attribute access targets frame 0 (as exercised
by the repository test: reader.y and reader.s return the first frame's
values). -/
def openReader (file : List Nat) : Option Reader :=
  if file.take 8 = headerBytes then
    if file.length = 8 then some ⟨file, [], 0⟩
    else
      match decNat 8 (file.drop (file.length - 8)) with
      | some (idxOff, _) =>
        match readChain file file.length idxOff with
        | some recs =>
          match tryMap (decFrame file) recs with
          | some frames => some ⟨file, frames, 0⟩
          | none => none
        | none => none
      | none => none
  else none

/-- open(path, index=i): as `openReader` but default access targets frame i. -/
def openReaderAt (file : List Nat) (i : Nat) : Option Reader :=
  match openReader file with
  | some r => some { r with index := i }
  | none => none

/-- Number of frames visible to the reader. -/
def Reader.nitemsR (r : Reader) : Nat := r.frames.length

/-- Raw attribute access in frame `i`. -/
def Reader.attrAtR (r : Reader) (i : Nat) (key : String) : Option RValue :=
  match r.frames[i]? with
  | some fr => fr.lookup key
  | none => none

/-- Raw attribute access in the default-targeted frame. -/
def Reader.attrR (r : Reader) (key : String) : Option RValue :=
  r.attrAtR r.index key

/-- Materialized attribute access in frame `i`. -/
def Reader.attrAt (r : Reader) (i : Nat) (key : String) : Option Value :=
  match r.attrAtR i key with
  | some v => matVal r.file v
  | none => none

/-- Materialized attribute access in the default-targeted frame. -/
def Reader.attr (r : Reader) (key : String) : Option Value :=
  r.attrAt r.index key

/-- Membership test within frame `i`: the key resolves in the frame's
decoded index, without materializing the value. -/
def Reader.memAt (r : Reader) (i : Nat) (key : String) : Bool :=
  (r.attrAtR i key).isSome

/-- Materialize every value of every frame (the full read-back). -/
def readValues (r : Reader) : Option (List Frame) :=
  tryMap (matKVs r.file) r.frames

/-- Append mode: check the header, locate the last index record from the
file tail and count existing frames via the chain; the writer then buffers
a brand-new frame appended after the last one, never rewriting existing
bytes. -/
def openAppend (file : List Nat) : Option Writer :=
  if file.take 8 = headerBytes then
    if file.length = 8 then some ⟨file, 0, 0, [], [], none⟩
    else
      match decNat 8 (file.drop (file.length - 8)) with
      | some (idxOff, _) =>
        match readChain file file.length idxOff with
        | some recs => some ⟨file, idxOff, recs.length, [], [], none⟩
        | none => none
      | none => none
  else none
/-- Append one frame to an existing archive: open in append mode, write the
frame's attributes, and close (the close performs the implicit sync). -/
def appendFrame (file : List Nat) (g : Frame) : Option (List Nat) :=
  match openAppend file with
  | some w =>
    match (w.write g).close with
    | .ok out => some out
    | .error _ => none
  | none => none


/-- A lazy array handle: file bytes, absolute payload offset, shape and
dtype; slicing reads only the requested byte range. -/
structure ArrProxy where
  file : List Nat
  off : Nat
  shape : List Nat
  dtype : Dtype

/-- Decode `k` rows of `width` elements each. -/
def decRows (width : Nat) : Nat → List Nat → Option (List (List Int) × List Nat)
  | 0, bs => some ([], bs)
  | k+1, bs =>
    match decInts width bs with
    | some (row, r) =>
      match decRows width k r with
      | some (rows, r2) => some (row :: rows, r2)
      | none => none
    | none => none

/-- proxy[a:b]: read rows `a ≤ i < b`, touching only the byte range of the
requested rows. -/
def ArrProxy.slice (p : ArrProxy) (a b : Nat) : Option (List (List Int)) :=
  match decRows (rowWidth p.shape) (b - a)
      (p.file.drop (p.off + a * (8 * rowWidth p.shape))) with
  | some (rows, _) => some rows
  | none => none

/-- proxy[:]: the fully materialized row list. -/
def ArrProxy.whole (p : ArrProxy) : Option (List (List Int)) :=
  p.slice 0 (p.shape.headD 0)

/-- proxy(key): a lazy array handle for an array-valued key in the
default-targeted frame; fails when the key is absent or not an array. -/
def Reader.proxy (r : Reader) (key : String) : Option ArrProxy :=
  match r.attrR key with
  | some (.arr dt shape off _) => some ⟨r.file, off, shape, dt⟩
  | _ => none

mutual
/-- Modelled from the spec's Copy Utility: drop every dictionary entry
whose qualified key path is in the exclusion set (a qualified path
".a.b" is modelled as the key path ["a", "b"]). -/
def exclVal (excl : List (List String)) (path : List String) : Value → Value
  | .dict kvs => .dict (exclKVs excl path kvs)
  | v => v
/-- Filter a key-value list by qualified path, preserving key order. -/
def exclKVs (excl : List (List String)) (path : List String) :
    List (String × Value) → List (String × Value)
  | [] => []
  | (k, v) :: rest =>
    if excl.contains (path ++ [k]) then exclKVs excl path rest
    else (k, exclVal excl (path ++ [k]) v) :: exclKVs excl path rest
end

/-- Filter one frame by qualified path. -/
def exclFrame (excl : List (List String)) (f : Frame) : Frame :=
  exclKVs excl [] f

/-- copy(src, dst, exclude): stream every source frame to a freshly
written destination, transferring every key whose qualified path is not
excluded, preserving frame order and per-frame key order. -/
def copyArchive (src : List Nat) (excl : List (List String)) : Option (List Nat) :=
  match openReader src with
  | some r =>
    match readValues r with
    | some fs =>
      match writeArchive (fs.map (exclFrame excl)) with
      | .ok out => some out
      | .error _ => none
    | none => none
  | none => none

/-- Drop the error of an Except into Option (for chaining concrete runs). -/
def exOk {ε α : Type} : Except ε α → Option α
  | .ok a => some a
  | .error _ => none

/-- The 64-bit word of the float 1.0 (IEEE-754 bit pattern), the payload
word written for each element of numpy.ones. -/
def oneF : Int := 4607182418800017408

/-- Frame 0 of the repository test fixture:
a = {x: ones((2,3))}, y = 9, s = 'abc'. -/
def demoFrame0 : Frame :=
  [("a", .dict [("x", .arr .float64 [2, 3] (List.replicate 6 oneF))]),
   ("y", .int 9), ("s", .str "abc")]

/-- Frame 1 of the fixture: s = 'abc2'. -/
def demoFrame1 : Frame := [("s", .str "abc2")]

/-- Frame 2 of the fixture: s = 'abc3', z = ones(7, int). -/
def demoFrame2 : Frame :=
  [("s", .str "abc3"), ("z", .arr .int64 [7] (List.replicate 7 1))]

/-- The three-frame fixture archive content. -/
def demoFrames : List Frame := [demoFrame0, demoFrame1, demoFrame2]

/-- The fixture archive bytes. -/
def demoFile : List Nat := archBytes demoFrames

/-- The exact fixture writer-op sequence: two writes for frame 0, explicit
syncs for frames 0 and 1, and frame 2 committed only by close. -/
def demoOps : Except UlmError (List Nat) := do
  let w := openW
  let w := w.write [("a", .dict [("x", .arr .float64 [2, 3] (List.replicate 6 oneF))]),
                    ("y", .int 9)]
  let w := w.write [("s", .str "abc")]
  let w ← w.sync
  let w := w.write [("s", .str "abc2")]
  let w ← w.sync
  let w := w.write [("s", .str "abc3"), ("z", .arr .int64 [7] (List.replicate 7 1))]
  w.close

/-- The frame appended by the repository's append test: d = {h: 'asdf'}
plus the incrementally filled (4,2) array psi. -/
def demoFrame3 : Frame :=
  [("d", .dict [("h", .str "asdf")]),
   ("psi", .arr .int64 [4, 2] [1, 1, 2, 2, 3, 3, 3, 3])]

/-- Append-mode run on the fixture: open for append, write d, declare psi
of shape (4,2), fill chunks of 1, 1 and 2 rows, close. -/
def demoAppendFile : Option (List Nat) :=
  (openAppend demoFile).bind fun w0 =>
  (exOk ((w0.write [("d", .dict [("h", .str "asdf")])]).addArray "psi" [4, 2] .int64)).bind fun w1 =>
  (exOk (w1.fill [[1, 1]])).bind fun w2 =>
  (exOk (w2.fill [[2, 2]])).bind fun w3 =>
  (exOk (w3.fill [[3, 3], [3, 3]])).bind fun w4 =>
  exOk w4.close

/-- A writer mid-frame whose declared (4,2) array has all 4 rows filled
(the state reached after the three demo fill calls). -/
def demoFullWriter : Writer :=
  ⟨headerBytes, 0, 0, [("psi", .slot 0)], [],
   some ⟨[4, 2], .int64, [[1, 1], [2, 2], [3, 3], [3, 3]]⟩⟩

/-- Run a sequence of fill calls. -/
def runFills (w : Writer) : List (List (List Int)) → Except UlmError Writer
  | [] => .ok w
  | ch :: rest =>
    match w.fill ch with
    | .ok w2 => runFills w2 rest
    | .error e => .error e

/-- The append-test run with the psi array written by one single fill call
of the full data instead of three chunks. -/
def demoAppendFileSingle : Option (List Nat) :=
  (openAppend demoFile).bind fun w0 =>
  (exOk ((w0.write [("d", .dict [("h", .str "asdf")])]).addArray "psi" [4, 2] .int64)).bind fun w1 =>
  (exOk (w1.fill [[1, 1], [2, 2], [3, 3], [3, 3]])).bind fun w2 =>
  exOk w2.close

/-- The canonical bytes of the appended four-frame archive. -/
def demoAppendedBytes : List Nat := archBytes (demoFrames ++ [demoFrame3])

/-- The reader of the appended archive opened with index=3. -/
def demoReader3 : Reader :=
  (openReaderAt demoAppendedBytes 3).getD ⟨[], [], 0⟩

/-- The lazy proxy for psi in frame 3 of the appended archive. -/
def demoPsiProxy : ArrProxy :=
  (demoReader3.proxy "psi").getD ⟨[], 0, [], .int64⟩

/-- The three chunks of the append test: row counts 1, 1 and 2. -/
def demoChunks : List (List (List Int)) := [[[1, 1]], [[2, 2]], [[3, 3], [3, 3]]]

/-- A writer with a freshly declared, still empty (4,2) int array. -/
def demoEmptyPsiWriter : Writer :=
  ⟨headerBytes, 0, 0, [("psi", .slot 0)], [], some ⟨[4, 2], .int64, []⟩⟩

/-- Total encoded byte length of a frame sequence. -/
def sumLens : List Frame → Nat
  | [] => 0
  | f :: fs => frameLen f + sumLens fs

/-- The (attribute offset, attribute length) index records of a frame
sequence laid out starting at byte offset `base`. -/
def specRecs (base : Nat) : List Frame → List (Nat × Nat)
  | [] => []
  | f :: fs => (base, (frameAB f).length) :: specRecs (base + frameLen f) fs

end Ulm

namespace FixSym

/-!
Shallow embedding of the attribute accesses of
ase/spacegroup/symmetrize.py FixSymmetry (lines 172-194): each method body
is modelled as the ordered sequence of Python attribute lookups it performs
before assigning its output; a lookup of a name absent from the object's
attribute set raises AttributeError (modelled as `Except.error name`),
aborting the method before any later read or the final write.
-/

/-- Modelled from the spec: the Atoms collaborator (ase/atoms.py, an
out-of-scope interface per the spec) exposes positions/cell data and the
cell accessor methods; it has no attribute named "postions". -/
def atomsAttrs : List String :=
  ["positions", "numbers", "cell", "pbc",
   "get_cell", "get_reciprocal_cell", "get_positions", "set_positions",
   "get_scaled_positions"]

/-- Attributes assigned by FixSymmetry.__init__ (symmetrize.py lines
172-175): rotations, translations and symm_map only; neither `positions`
nor `cell` is ever assigned. -/
def initAttrs : List String := ["rotations", "translations", "symm_map"]

/-- Python attribute lookup: AttributeError (carrying the name) when the
attribute is absent. -/
def readAttr (attrs : List String) (name : String) : Except String Unit :=
  if attrs.contains name then .ok () else .error name

/-- FixSymmetry.adjust_positions (lines 185-194): reads atoms.postions
(line 187), the cell accessors, the constraint data, and self.positions
(line 194); only then would it write `new`.  A returned `ok` models the
write to new[:] happening. -/
def adjust_positions (selfA atomsA : List String) : Except String Unit := do
  readAttr atomsA "postions"
  readAttr atomsA "get_cell"
  readAttr atomsA "get_reciprocal_cell"
  readAttr selfA "rotations"
  readAttr selfA "translations"
  readAttr selfA "symm_map"
  readAttr selfA "positions"

/-- FixSymmetry.adjust_cell (lines 177-183): reads atoms.cell (line 179),
the cell accessors, self.rotations, and self.cell (line 183); only then
would it write `cell`.  A returned `ok` models the write to cell[:]
happening. -/
def adjust_cell (selfA atomsA : List String) : Except String Unit := do
  readAttr atomsA "cell"
  readAttr atomsA "get_cell"
  readAttr atomsA "get_reciprocal_cell"
  readAttr selfA "rotations"
  readAttr selfA "cell"

end FixSym

namespace DbCli

/-- Python slice txt[:k] on a list of characters: a negative bound counts
from the end (clamped at zero). -/
def pySlice (l : List Char) (k : Int) : List Char :=
  l.take (if k < 0 then ((l.length : Int) + k).toNat else k.toNat)

/-- ase/db/cli.py `cut(txt, length)` (lines 115-118): return txt unchanged
when it fits, else truncate to length-3 characters (a Python slice, so a
negative bound drops trailing characters instead) and append '...'. -/
def cut (txt : List Char) (length : Int) : List Char :=
  if (txt.length : Int) ≤ length then txt
  else pySlice txt (length - 3) ++ ['.', '.', '.']

end DbCli

namespace Ulm

theorem encNat_length : ∀ (k n : Nat), (encNat k n).length = k := by
  intro k
  induction k with
  | zero => intro n; simp [encNat]
  | succ k ih => intro n; simp [encNat, ih]

theorem decNat_encNat : ∀ (k n : Nat) (rest : List Nat), n < 256 ^ k →
    decNat k (encNat k n ++ rest) = some (n, rest) := by
  intro k
  induction k with
  | zero =>
    intro n rest h
    have hn : n = 0 := by simpa using h
    subst hn
    simp [encNat, decNat]
  | succ k ih =>
    intro n rest h
    rw [pow_succ] at h
    have hdiv : n / 256 < 256 ^ k := by omega
    simp only [encNat, List.cons_append]
    rw [decNat, ih (n / 256) rest hdiv]
    exact congrArg some (Prod.ext (by omega) rfl)

theorem encInt_length (i : Int) : (encInt i).length = 8 := by
  simp [encInt, encNat_length]

theorem decInt_encInt (i : Int) (rest : List Nat)
    (h1 : -9223372036854775808 ≤ i) (h2 : i < 9223372036854775808) :
    decInt (encInt i ++ rest) = some (i, rest) := by
  have hm0 : (0:Int) ≤ i % 18446744073709551616 := by omega
  have e1 : (((i % 18446744073709551616).toNat : Int)) = i % 18446744073709551616 :=
    Int.toNat_of_nonneg hm0
  have hlt : (i % 18446744073709551616).toNat < 256 ^ 8 := by
    norm_num
    omega
  unfold encInt decInt
  rw [decNat_encNat _ _ _ hlt]
  refine congrArg some (Prod.ext ?_ rfl)
  simp only
  split <;> omega

theorem wfInt_bounds {i : Int} (h : wfInt i = true) :
    -9223372036854775808 ≤ i ∧ i < 9223372036854775808 := by
  simp only [wfInt, Bool.and_eq_true, decide_eq_true_eq] at h
  exact h

theorem flatMap_encInt_length (data : List Int) :
    (data.flatMap encInt).length = 8 * data.length := by
  induction data with
  | nil => simp
  | cons i tl ih =>
    simp [List.flatMap_cons, encInt_length, ih]
    ring

theorem decInts_encInts : ∀ (data : List Int) (rest : List Nat),
    data.all wfInt = true →
    decInts data.length (data.flatMap encInt ++ rest) = some (data, rest) := by
  intro data
  induction data with
  | nil => intro rest _; simp [decInts]
  | cons i tl ih =>
    intro rest hwf
    simp only [List.all_cons, Bool.and_eq_true] at hwf
    obtain ⟨hi, htl⟩ := hwf
    obtain ⟨hi1, hi2⟩ := wfInt_bounds hi
    simp only [List.flatMap_cons, List.length_cons, List.append_assoc]
    rw [decInts, decInt_encInt i _ hi1 hi2]
    dsimp only
    rw [ih _ htl]

theorem decNats_encNats : ∀ (ns : List Nat) (rest : List Nat),
    ns.all (fun d => decide (d < 18446744073709551616)) = true →
    decNats ns.length (ns.flatMap (encNat 8) ++ rest) = some (ns, rest) := by
  intro ns
  induction ns with
  | nil => intro rest _; simp [decNats]
  | cons d tl ih =>
    intro rest hwf
    simp only [List.all_cons, Bool.and_eq_true, decide_eq_true_eq] at hwf
    obtain ⟨hd, htl⟩ := hwf
    have hd8 : d < 256 ^ 8 := by norm_num; omega
    simp only [List.flatMap_cons, List.length_cons, List.append_assoc]
    rw [decNats, decNat_encNat _ _ _ hd8]
    dsimp only
    rw [ih _ htl]

theorem char_toNat_lt (c : Char) : c.toNat < 256 ^ 4 := by
  have h := c.val.toBitVec.isLt
  norm_num
  simpa [Char.toNat, UInt32.toNat] using h

theorem decChars_encChars : ∀ (cs : List Char) (rest : List Nat),
    decChars cs.length (encChars cs ++ rest) = some (cs, rest) := by
  intro cs
  induction cs with
  | nil => intro rest; simp [encChars, decChars]
  | cons c tl ih =>
    intro rest
    simp only [encChars, List.flatMap_cons, List.length_cons, List.append_assoc]
    rw [decChars, decNat_encNat _ _ _ (char_toNat_lt c)]
    dsimp only
    have htl : tl.flatMap (fun c : Char => encNat 4 c.toNat) ++ rest = encChars tl ++ rest := rfl
    rw [htl, ih]
    simp [Char.ofNat_toNat]

theorem decStr_encStr (s : String) (rest : List Nat)
    (h : s.length < 18446744073709551616) :
    decStr (encStr s ++ rest) = some (s, rest) := by
  have h8 : s.length < 256 ^ 8 := by norm_num; omega
  have hlen : s.length = s.data.length := rfl
  simp only [encStr, List.append_assoc]
  rw [decStr, decNat_encNat _ _ _ h8, hlen]
  dsimp only
  rw [decChars_encChars]

end Ulm

namespace Ulm

theorem sizeV_pos : ∀ v : Value, 1 ≤ sizeV v := by
  intro v
  cases v <;> simp [sizeV]

theorem encChars_length (cs : List Char) : (encChars cs).length = 4 * cs.length := by
  induction cs with
  | nil => simp [encChars]
  | cons c tl ih =>
    simp only [encChars, List.flatMap_cons] at ih ⊢
    simp [encNat_length, ih]
    ring

theorem encStr_length (s : String) : (encStr s).length = 8 + 4 * s.length := by
  simp [encStr, encNat_length, encChars_length]

theorem size_le_encLen : ∀ n : Nat,
    (∀ (v : Value) (rel : Nat), sizeV v ≤ n → sizeV v ≤ (encVal rel v).1.length) ∧
    (∀ (kvs : List (String × Value)) (rel : Nat),
      sizeKVs kvs ≤ n → sizeKVs kvs ≤ (encKVs rel kvs).1.length) := by
  intro n
  induction n with
  | zero =>
    constructor
    · intro v rel hs
      exact absurd hs (by have := sizeV_pos v; omega)
    · intro kvs rel hs
      omega
  | succ n ih =>
    obtain ⟨ihV, ihK⟩ := ih
    constructor
    · intro v rel hs
      cases v with
      | null => simp [sizeV, encVal]
      | bool b => simp [sizeV, encVal]
      | int i => simp [sizeV, encVal]
      | float w => simp [sizeV, encVal]
      | str s => simp [sizeV, encVal]
      | arr dt shape data => simp [sizeV, encVal]
      | dict kvs =>
        have hk : sizeKVs kvs ≤ n := by
          have := hs
          simp only [sizeV] at this
          omega
        have := ihK kvs rel hk
        simp only [sizeV, encVal, List.length_cons, List.length_append]
        omega
    · intro kvs rel hs
      cases kvs with
      | nil => simp [sizeKVs, encKVs]
      | cons kv tl =>
        obtain ⟨k, v⟩ := kv
        have h1 : sizeV v ≤ n := by
          have := hs
          simp only [sizeKVs] at this
          omega
        have h2 : sizeKVs tl ≤ n := by
          have := hs
          simp only [sizeKVs] at this
          omega
        have e1 := ihV v rel h1
        have e2 := ihK tl (rel + (encVal rel v).2.length) h2
        simp only [sizeKVs, encKVs, List.length_append, encStr_length]
        omega

theorem dtypeOfByte_toByte (dt : Dtype) : dtypeOfByte dt.toByte = some dt := by
  cases dt <;> rfl

end Ulm

namespace Ulm

theorem decVal_encVal : ∀ fuel : Nat,
    (∀ (v : Value) (rel : Nat) (rest : List Nat) (payBase : Nat),
      wfV v = true → sizeV v < fuel →
      rel + (encVal rel v).2.length < 18446744073709551616 →
      decVal payBase fuel ((encVal rel v).1 ++ rest) = some (toRVal payBase rel v, rest)) ∧
    (∀ (kvs : List (String × Value)) (rel : Nat) (rest : List Nat) (payBase : Nat),
      wfKVs kvs = true → sizeKVs kvs < fuel →
      rel + (encKVs rel kvs).2.length < 18446744073709551616 →
      decKVs payBase fuel kvs.length ((encKVs rel kvs).1 ++ rest) =
        some (toRKVs payBase rel kvs, rest)) := by
  intro fuel
  induction fuel with
  | zero =>
    exact ⟨fun v _ _ _ _ hs _ => absurd hs (by have := sizeV_pos v; omega),
           fun kvs _ _ _ _ hs _ => absurd hs (by omega)⟩
  | succ fuel ih =>
    obtain ⟨ihV, ihK⟩ := ih
    constructor
    · intro v rel rest payBase hwf hs hrel
      cases v with
      | null => simp [encVal, decVal, toRVal]
      | bool b => cases b <;> simp [encVal, decVal, toRVal]
      | int i =>
        simp only [wfV] at hwf
        obtain ⟨h1, h2⟩ := wfInt_bounds hwf
        simp only [encVal, toRVal, List.cons_append]
        rw [decVal]
        rw [decInt_encInt i _ h1 h2]
      | float w =>
        simp only [wfV] at hwf
        obtain ⟨h1, h2⟩ := wfInt_bounds hwf
        simp only [encVal, toRVal, List.cons_append]
        rw [decVal]
        rw [decInt_encInt w _ h1 h2]
      | str s =>
        simp only [wfV, decide_eq_true_eq] at hwf
        simp only [encVal, toRVal, List.cons_append]
        rw [decVal]
        rw [decStr_encStr s _ hwf]
      | dict kvs =>
        simp only [wfV, Bool.and_eq_true, decide_eq_true_eq] at hwf
        obtain ⟨hlen, hk⟩ := hwf
        have hs' : sizeKVs kvs < fuel := by simp only [sizeV] at hs; omega
        have hlen8 : kvs.length < 256 ^ 8 := by norm_num; omega
        have hrel' : rel + (encKVs rel kvs).2.length < 18446744073709551616 := by
          simpa [encVal] using hrel
        simp only [encVal, toRVal, List.cons_append, List.append_assoc]
        rw [decVal]
        rw [decNat_encNat _ _ _ hlen8]
        dsimp only
        rw [ihK kvs rel rest payBase hk hs' hrel']
      | arr dt shape data =>
        simp only [wfV, Bool.and_eq_true] at hwf
        obtain ⟨⟨⟨h1, h2⟩, h3⟩, _⟩ := hwf
        simp only [decide_eq_true_eq] at h1 h3
        have hnd8 : shape.length < 256 ^ 8 := by norm_num; omega
        have hrel8 : rel < 256 ^ 8 := by norm_num; omega
        have hlen8 : 8 * data.length < 256 ^ 8 := by norm_num; omega
        simp only [encVal, toRVal, List.cons_append, List.append_assoc]
        rw [decVal]
        rw [dtypeOfByte_toByte]
        dsimp only
        rw [decNat_encNat _ _ _ hnd8]
        dsimp only
        rw [decNats_encNats _ _ h2]
        dsimp only
        rw [decNat_encNat _ _ _ hrel8]
        dsimp only
        rw [decNat_encNat _ _ _ hlen8]
    · intro kvs rel rest payBase hwf hs hrel
      cases kvs with
      | nil => simp [encKVs, decKVs, toRKVs]
      | cons kv tl =>
        obtain ⟨k, v⟩ := kv
        simp only [wfKVs, Bool.and_eq_true, decide_eq_true_eq] at hwf
        obtain ⟨⟨hk, hv⟩, htl⟩ := hwf
        have hsv : sizeV v < fuel := by simp only [sizeKVs] at hs; omega
        have hst : sizeKVs tl < fuel := by simp only [sizeKVs] at hs; omega
        have hrelv : rel + (encVal rel v).2.length < 18446744073709551616 := by
          simp only [encKVs, List.length_append] at hrel
          omega
        have hrelt : (rel + (encVal rel v).2.length) +
            (encKVs (rel + (encVal rel v).2.length) tl).2.length <
            18446744073709551616 := by
          simp only [encKVs, List.length_append] at hrel
          omega
        simp only [encKVs, toRKVs, List.length_cons, List.append_assoc]
        rw [decKVs]
        rw [decStr_encStr k _ hk]
        dsimp only
        rw [ihV v rel _ payBase hv hsv hrelv]
        dsimp only
        rw [ihK tl _ rest payBase htl hst hrelt]

end Ulm

namespace Ulm

theorem seg_split (file x y : List Nat) (a : Nat)
    (h : (file.drop a).take (x.length + y.length) = x ++ y) :
    (file.drop a).take x.length = x ∧ (file.drop (a + x.length)).take y.length = y := by
  constructor
  · have h1 := congrArg (List.take x.length) h
    rw [List.take_take, Nat.min_eq_left (Nat.le_add_right _ _), List.take_left] at h1
    exact h1
  · have h2 := congrArg (List.drop x.length) h
    rw [List.drop_take, List.drop_drop, List.drop_left, Nat.add_sub_cancel_left] at h2
    exact h2

theorem matVal_toRVal : ∀ n : Nat,
    (∀ (v : Value) (rel payBase : Nat) (file : List Nat), sizeV v ≤ n → wfV v = true →
      (file.drop (payBase + rel)).take (encVal rel v).2.length = (encVal rel v).2 →
      matVal file (toRVal payBase rel v) = some v) ∧
    (∀ (kvs : List (String × Value)) (rel payBase : Nat) (file : List Nat),
      sizeKVs kvs ≤ n → wfKVs kvs = true →
      (file.drop (payBase + rel)).take (encKVs rel kvs).2.length = (encKVs rel kvs).2 →
      matKVs file (toRKVs payBase rel kvs) = some kvs) := by
  intro n
  induction n with
  | zero =>
    constructor
    · intro v rel payBase file hs _ _
      exact absurd hs (by have := sizeV_pos v; omega)
    · intro kvs rel payBase file hs hwf _
      cases kvs with
      | nil => simp [toRKVs, matKVs]
      | cons kv tl =>
        exact absurd hs (by have := sizeV_pos kv.2; simp only [sizeKVs]; omega)
  | succ n ih =>
    obtain ⟨ihV, ihK⟩ := ih
    constructor
    · intro v rel payBase file hs hwf hseg
      cases v with
      | null => rfl
      | bool b => rfl
      | int i => rfl
      | float w => rfl
      | str s => rfl
      | dict kvs =>
        have hs' : sizeKVs kvs ≤ n := by simp only [sizeV] at hs; omega
        simp only [wfV, Bool.and_eq_true, decide_eq_true_eq] at hwf
        simp only [toRVal, matVal]
        rw [ihK kvs rel payBase file hs' hwf.2 (by simpa [encVal] using hseg)]
      | arr dt shape data =>
        simp only [wfV, Bool.and_eq_true] at hwf
        obtain ⟨⟨⟨_, _⟩, _⟩, hdata⟩ := hwf
        simp only [encVal, flatMap_encInt_length] at hseg
        simp only [toRVal, matVal]
        rw [Nat.mul_div_cancel_left data.length (by norm_num : 0 < 8), hseg]
        have hd := decInts_encInts data [] hdata
        rw [List.append_nil] at hd
        rw [hd]
    · intro kvs rel payBase file hs hwf hseg
      cases kvs with
      | nil => simp [toRKVs, matKVs]
      | cons kv tl =>
        obtain ⟨k, v⟩ := kv
        simp only [wfKVs, Bool.and_eq_true, decide_eq_true_eq] at hwf
        obtain ⟨⟨_, hv⟩, htl⟩ := hwf
        have hsv : sizeV v ≤ n := by simp only [sizeKVs] at hs; omega
        have hst : sizeKVs tl ≤ n := by simp only [sizeKVs] at hs; omega
        simp only [encKVs, List.length_append] at hseg
        obtain ⟨hseg1, hseg2⟩ := seg_split file _ _ _ hseg
        have hseg2' : (file.drop (payBase + (rel + (encVal rel v).2.length))).take
            (encKVs (rel + (encVal rel v).2.length) tl).2.length =
            (encKVs (rel + (encVal rel v).2.length) tl).2 := by
          rw [← Nat.add_assoc]
          exact hseg2
        simp only [toRKVs, matKVs]
        rw [ihV v rel payBase file hsv hv hseg1]
        rw [ihK tl _ payBase file hst htl hseg2']

end Ulm

namespace Ulm

theorem frameIdxRel_le_frameLen (f : Frame) : frameIdxRel f ≤ frameLen f := by
  simp [frameLen]

theorem frameLen_ge (f : Frame) : 32 ≤ frameLen f := by
  simp [frameLen]

theorem frameBytesAt_length (atOff prev : Nat) (f : Frame) :
    (frameBytesAt atOff prev f).length = frameLen f := by
  simp [frameBytesAt, frameLen, frameIdxRel, encNat_length]
  omega

theorem archAux_length : ∀ (fs : List Frame) (acc : List Nat) (prev : Nat),
    (archAux acc prev fs).length = acc.length + sumLens fs := by
  intro fs
  induction fs with
  | nil => intro acc prev; simp [archAux, sumLens]
  | cons f tl ih =>
    intro acc prev
    simp only [archAux, sumLens]
    rw [ih]
    simp [frameBytesAt_length]
    omega

theorem archAux_append : ∀ (fs : List Frame) (g : Frame) (acc : List Nat) (prev : Nat),
    archAux acc prev (fs ++ [g]) =
      archAux acc prev fs ++
        frameBytesAt (archAux acc prev fs).length (lastIdxAux acc.length prev fs) g := by
  intro fs
  induction fs with
  | nil => intro g acc prev; simp [archAux, lastIdxAux]
  | cons f tl ih =>
    intro g acc prev
    simp only [List.cons_append, archAux, lastIdxAux, List.append_eq]
    rw [ih]
    have hlen : (acc ++ frameBytesAt acc.length prev f).length = acc.length + frameLen f := by
      simp [frameBytesAt_length]
    rw [hlen]

theorem lastIdxAux_le : ∀ (fs : List Frame) (base prev : Nat), prev ≤ base →
    lastIdxAux base prev fs ≤ base + sumLens fs := by
  intro fs
  induction fs with
  | nil => intro base prev h; simp [lastIdxAux, sumLens]; omega
  | cons f tl ih =>
    intro base prev h
    simp only [lastIdxAux, sumLens]
    have := ih (base + frameLen f) (base + frameIdxRel f)
      (by have := frameIdxRel_le_frameLen f; omega)
    omega

theorem lastIdxAux_ge : ∀ (fs : List Frame) (base prev : Nat), fs ≠ [] →
    base ≤ lastIdxAux base prev fs := by
  intro fs
  induction fs with
  | nil => intro base prev h; exact absurd rfl h
  | cons f tl ih =>
    intro base prev _
    simp only [lastIdxAux]
    cases tl with
    | nil => simp [lastIdxAux]
    | cons f2 tl2 =>
      have := ih (base + frameLen f) (base + frameIdxRel f) (by simp)
      omega

theorem specRecs_append : ∀ (fs : List Frame) (base : Nat) (g : Frame),
    specRecs base (fs ++ [g]) =
      specRecs base fs ++ [(base + sumLens fs, (frameAB g).length)] := by
  intro fs
  induction fs with
  | nil => intro base g; simp [specRecs, sumLens]
  | cons f tl ih =>
    intro base g
    simp only [List.cons_append, specRecs, sumLens, List.append_eq]
    rw [ih]
    simp
    omega

theorem sumLens_ge_length : ∀ fs : List Frame, fs.length ≤ sumLens fs := by
  intro fs
  induction fs with
  | nil => simp [sumLens]
  | cons f tl ih =>
    simp only [sumLens, List.length_cons]
    have := frameLen_ge f
    omega

theorem lastIdxAux_append : ∀ (fs : List Frame) (base prev : Nat) (g : Frame),
    lastIdxAux base prev (fs ++ [g]) = base + sumLens fs + frameIdxRel g := by
  intro fs
  induction fs with
  | nil => intro base prev g; simp [lastIdxAux, sumLens]
  | cons f tl ih =>
    intro base prev g
    simp only [List.cons_append, lastIdxAux, sumLens, List.append_eq]
    rw [ih]
    omega

end Ulm

namespace Ulm

theorem tryMap_append {α β : Type} (f : α → Option β) : ∀ (l1 l2 : List α),
    tryMap f (l1 ++ l2) =
      match tryMap f l1 with
      | some b1 =>
        match tryMap f l2 with
        | some b2 => some (b1 ++ b2)
        | none => none
      | none => none := by
  intro l1 l2
  induction l1 with
  | nil =>
    cases h2 : tryMap f l2 <;> simp [tryMap, h2]
  | cons a tl ih =>
    cases hfa : f a with
    | none => simp [tryMap, hfa]
    | some b =>
      simp only [List.cons_append, tryMap, hfa, List.append_eq]
      rw [ih]
      cases tryMap f tl <;> cases tryMap f l2 <;> simp

theorem sumLens_append : ∀ (fs : List Frame) (g : Frame),
    sumLens (fs ++ [g]) = sumLens fs + frameLen g := by
  intro fs g
  induction fs with
  | nil => simp [sumLens]
  | cons f tl ih =>
    simp only [List.cons_append, sumLens, List.append_eq, ih]
    omega

theorem framePay_eq (g : Frame) : framePay g = (encKVs 0 g).2 := rfl

theorem frame_decode (file pre : List Nat) (g : Frame) (rest : List Nat)
    (hfile : file = pre ++ (frameAB g ++ (framePay g ++ rest)))
    (hwf : wfFrame g = true)
    (hpay : (framePay g).length < 18446744073709551616) :
    decFrame file (pre.length, (frameAB g).length) =
      some (toRKVs (pre.length + (frameAB g).length) 0 g) ∧
    matKVs file (toRKVs (pre.length + (frameAB g).length) 0 g) = some g := by
  have hwfd : wfV (.dict g) = true := by
    simpa [wfV, wfFrame] using hwf
  have hwfk : wfKVs g = true := by
    simp only [wfFrame, Bool.and_eq_true] at hwf
    exact hwf.2
  have hsize : sizeV (.dict g) < (frameAB g).length + 1 := by
    have h := (size_le_encLen (sizeV (.dict g))).1 (.dict g) 0 (le_refl _)
    simp only [frameAB]
    omega
  have hdrop : file.drop pre.length = frameAB g ++ (framePay g ++ rest) := by
    rw [hfile]
    exact List.drop_left _ _
  have htake : (file.drop pre.length).take (frameAB g).length = frameAB g := by
    rw [hdrop]
    exact List.take_left _ _
  have hrt := (decVal_encVal ((frameAB g).length + 1)).1 (.dict g) 0 []
    (pre.length + (frameAB g).length) hwfd hsize
    (by simpa [framePay_eq, encVal] using hpay)
  rw [List.append_nil] at hrt
  constructor
  · simp only [decFrame]
    rw [htake]
    rw [show ((encVal 0 (Value.dict g)).1 : List Nat) = frameAB g from rfl] at hrt
    rw [hrt]
    simp [toRVal]
  · have hseg : (file.drop (pre.length + (frameAB g).length + 0)).take
        (encKVs 0 g).2.length = (encKVs 0 g).2 := by
      have hd2 : file.drop (pre.length + (frameAB g).length) =
          framePay g ++ rest := by
        rw [hfile, ← List.length_append pre (frameAB g), ← List.append_assoc]
        exact List.drop_left _ _
      rw [Nat.add_zero, hd2, ← framePay_eq]
      exact List.take_left _ _
    have hm := (matVal_toRVal (sizeKVs g)).2 g 0 (pre.length + (frameAB g).length) file
      (le_refl _) hwfk hseg
    exact hm

end Ulm

namespace Ulm

theorem readRecord_at (file pre rest : List Nat) (p a l s : Nat)
    (hfile : file = pre ++ (encNat 8 p ++ (encNat 8 a ++ (encNat 8 l ++ (encNat 8 s ++ rest)))))
    (hp : p < 18446744073709551616) (ha : a < 18446744073709551616)
    (hl : l < 18446744073709551616) :
    readRecord file pre.length = some (p, a, l) := by
  have h8 : ∀ x : Nat, x < 18446744073709551616 → x < 256 ^ 8 := by
    intro x hx
    norm_num
    omega
  simp only [readRecord]
  rw [hfile, List.drop_left]
  rw [decNat_encNat _ _ _ (h8 p hp)]
  dsimp only
  rw [decNat_encNat _ _ _ (h8 a ha)]
  dsimp only
  rw [decNat_encNat _ _ _ (h8 l hl)]

theorem arch_chain : ∀ (fs : List Frame) (acc ext : List Nat) (fuel : Nat),
    fs ≠ [] → fs.length ≤ fuel → 8 ≤ acc.length → wfFrames fs = true →
    (archAux acc 0 fs).length < 18446744073709551616 →
    readChain (archAux acc 0 fs ++ ext) fuel (lastIdxAux acc.length 0 fs) =
      some (specRecs acc.length fs) ∧
    ∃ rfs : List RFrame,
      tryMap (decFrame (archAux acc 0 fs ++ ext)) (specRecs acc.length fs) = some rfs ∧
      tryMap (matKVs (archAux acc 0 fs ++ ext)) rfs = some fs := by
  intro fs
  induction fs using List.reverseRecOn with
  | nil =>
    intro acc ext fuel hne
    exact absurd rfl hne
  | append_singleton fs g ih =>
    intro acc ext fuel _ hfuel hacc hwf hB
    cases fuel with
    | zero => simp at hfuel
    | succ fuel =>
      have hwfg : wfFrame g = true := by
        simp only [wfFrames, List.all_append, Bool.and_eq_true, List.all_cons,
          List.all_nil, and_true] at hwf
        exact hwf.2
      have hwf' : wfFrames fs = true := by
        simp only [wfFrames, List.all_append, Bool.and_eq_true] at hwf
        exact hwf.1
      have hFeq := archAux_append fs g acc 0
      have hlenF' : (archAux acc 0 fs).length = acc.length + sumLens fs :=
        archAux_length fs acc 0
      have hlenTot : (archAux acc 0 (fs ++ [g])).length =
          acc.length + sumLens fs + frameLen g := by
        rw [archAux_length, sumLens_append]
        omega
      have hBtot : acc.length + sumLens fs + frameLen g < 18446744073709551616 := by
        rw [hlenTot] at hB
        exact hB
      have hlast : lastIdxAux acc.length 0 (fs ++ [g]) =
          (archAux acc 0 fs).length + frameIdxRel g := by
        rw [lastIdxAux_append, hlenF']
      have hp'le : lastIdxAux acc.length 0 fs ≤ (archAux acc 0 fs).length := by
        rw [hlenF']
        exact lastIdxAux_le fs acc.length 0 (Nat.zero_le _)
      have hfrel : frameIdxRel g = (frameAB g).length + (framePay g).length := rfl
      have hflen : frameLen g = frameIdxRel g + 32 := rfl
      have hfile1 : archAux acc 0 (fs ++ [g]) ++ ext =
          (archAux acc 0 fs ++ (frameAB g ++ framePay g)) ++
          (encNat 8 (lastIdxAux acc.length 0 fs) ++ (encNat 8 (archAux acc 0 fs).length ++
           (encNat 8 (frameAB g).length ++
            (encNat 8 ((archAux acc 0 fs).length + frameIdxRel g) ++ ext)))) := by
        rw [hFeq]
        simp [frameBytesAt, List.append_assoc]
      have hprelen : (archAux acc 0 fs ++ (frameAB g ++ framePay g)).length =
          (archAux acc 0 fs).length + frameIdxRel g := by
        simp only [List.length_append, hfrel]
      have hrec : readRecord (archAux acc 0 (fs ++ [g]) ++ ext)
          ((archAux acc 0 fs).length + frameIdxRel g) =
          some (lastIdxAux acc.length 0 fs, (archAux acc 0 fs).length, (frameAB g).length) := by
        rw [← hprelen]
        exact readRecord_at _ _ _ _ _ _ _ hfile1 (by omega) (by omega) (by omega)
      have hfile2 : archAux acc 0 (fs ++ [g]) ++ ext =
          archAux acc 0 fs ++ (frameAB g ++ (framePay g ++
            ((encNat 8 (lastIdxAux acc.length 0 fs) ++ encNat 8 (archAux acc 0 fs).length ++
              encNat 8 (frameAB g).length ++
              encNat 8 ((archAux acc 0 fs).length + frameIdxRel g)) ++ ext))) := by
        rw [hFeq]
        simp [frameBytesAt, List.append_assoc]
      have hdec := frame_decode (archAux acc 0 (fs ++ [g]) ++ ext) (archAux acc 0 fs) g _
        hfile2 hwfg (by omega)
      by_cases hfs : fs = []
      · subst hfs
        simp only [List.nil_append, archAux, lastIdxAux, sumLens, Nat.add_zero] at hrec hdec hlast hlenF' ⊢
        constructor
        · rw [readChain, hrec]
          simp [specRecs, sumLens]
        · refine ⟨[toRKVs (acc.length + (frameAB g).length) 0 g], ?_, ?_⟩
          · simp only [specRecs, sumLens, Nat.add_zero, tryMap, hdec.1]
          · simp only [tryMap, hdec.2]
      · have hIH := ih acc
          (frameBytesAt (archAux acc 0 fs).length (lastIdxAux acc.length 0 fs) g ++ ext)
          fuel hfs (by simp only [List.length_append, List.length_cons, List.length_nil] at hfuel; omega)
          hacc hwf' (by rw [hlenF']; have := frameLen_ge g; omega)
        have hready : archAux acc 0 fs ++
            (frameBytesAt (archAux acc 0 fs).length (lastIdxAux acc.length 0 fs) g ++ ext) =
            archAux acc 0 (fs ++ [g]) ++ ext := by
          rw [hFeq, List.append_assoc]
        rw [hready] at hIH
        obtain ⟨ihchain, rfs', ihdec, ihmat⟩ := hIH
        have hp'pos : 8 ≤ lastIdxAux acc.length 0 fs :=
          le_trans hacc (lastIdxAux_ge fs acc.length 0 hfs)
        have hbne : (lastIdxAux acc.length 0 fs == 0) = false := by
          simp only [beq_eq_false_iff_ne, ne_eq]
          omega
        constructor
        · rw [hlast, readChain, hrec]
          dsimp only
          rw [if_neg (fun h => Bool.false_ne_true (hbne ▸ h))]
          rw [ihchain]
          dsimp only
          rw [specRecs_append, ← hlenF']
        · refine ⟨rfs' ++ [toRKVs ((archAux acc 0 fs).length + (frameAB g).length) 0 g], ?_, ?_⟩
          · rw [specRecs_append, ← hlenF', tryMap_append, ihdec]
            dsimp only
            simp only [tryMap, hdec.1]
          · rw [tryMap_append, ihmat]
            dsimp only
            simp only [tryMap, hdec.2]

end Ulm

namespace Ulm

theorem archAux_prefix : ∀ (fs : List Frame) (acc : List Nat) (prev : Nat),
    ∃ t, archAux acc prev fs = acc ++ t := by
  intro fs
  induction fs with
  | nil => intro acc prev; exact ⟨[], by simp [archAux]⟩
  | cons f tl ih =>
    intro acc prev
    obtain ⟨t, ht⟩ := ih (acc ++ frameBytesAt acc.length prev f) (acc.length + frameIdxRel f)
    exact ⟨frameBytesAt acc.length prev f ++ t, by simp [archAux, ht]⟩

theorem sumLens_pos (fs : List Frame) (h : fs ≠ []) : 32 ≤ sumLens fs := by
  cases fs with
  | nil => exact absurd rfl h
  | cons f tl =>
    simp only [sumLens]
    have := frameLen_ge f
    omega

theorem headerBytes_length : headerBytes.length = 8 := rfl

theorem arch_tail : ∀ (fs : List Frame) (acc : List Nat) (prev : Nat), fs ≠ [] →
    (archAux acc prev fs).drop ((archAux acc prev fs).length - 8) =
      encNat 8 (lastIdxAux acc.length prev fs) := by
  intro fs acc prev hne
  rcases List.eq_nil_or_concat fs with rfl | ⟨fs', g, rfl⟩
  · exact absurd rfl hne
  · simp only [List.concat_eq_append] at hne ⊢
    rw [archAux_append, lastIdxAux_append]
    have hlen' : (archAux acc prev fs').length = acc.length + sumLens fs' :=
      archAux_length fs' acc prev
    have hsplit : archAux acc prev fs' ++
        frameBytesAt (archAux acc prev fs').length (lastIdxAux acc.length prev fs') g =
        (archAux acc prev fs' ++ (frameAB g ++ framePay g ++
          (encNat 8 (lastIdxAux acc.length prev fs') ++
           encNat 8 (archAux acc prev fs').length ++ encNat 8 (frameAB g).length))) ++
        encNat 8 ((archAux acc prev fs').length + frameIdxRel g) := by
      simp [frameBytesAt, List.append_assoc]
    rw [hsplit]
    have hl1 : ((archAux acc prev fs' ++ (frameAB g ++ framePay g ++
        (encNat 8 (lastIdxAux acc.length prev fs') ++
         encNat 8 (archAux acc prev fs').length ++ encNat 8 (frameAB g).length))) ++
        encNat 8 ((archAux acc prev fs').length + frameIdxRel g)).length =
        acc.length + sumLens fs' + frameLen g := by
      simp [encNat_length, hlen', frameLen, frameIdxRel]
      omega
    rw [hl1]
    have hl2 : acc.length + sumLens fs' + frameLen g - 8 =
        (archAux acc prev fs' ++ (frameAB g ++ framePay g ++
          (encNat 8 (lastIdxAux acc.length prev fs') ++
           encNat 8 (archAux acc prev fs').length ++ encNat 8 (frameAB g).length))).length := by
      simp [encNat_length, hlen', frameLen, frameIdxRel]
      omega
    rw [hl2, List.drop_left, hlen']

theorem tryMap_length {α β : Type} (f : α → Option β) :
    ∀ (l : List α) (l2 : List β), tryMap f l = some l2 → l2.length = l.length := by
  intro l
  induction l with
  | nil => intro l2 h; simp [tryMap] at h; simp [← h]
  | cons a tl ih =>
    intro l2 h
    simp only [tryMap] at h
    cases hfa : f a with
    | none => rw [hfa] at h; exact absurd h (by simp)
    | some b =>
      rw [hfa] at h
      cases htl : tryMap f tl with
      | none => rw [htl] at h; exact absurd h (by simp)
      | some bs =>
        rw [htl] at h
        simp only [Option.some.injEq] at h
        subst h
        simp [ih bs htl]

theorem specRecs_length : ∀ (fs : List Frame) (base : Nat),
    (specRecs base fs).length = fs.length := by
  intro fs
  induction fs with
  | nil => intro base; simp [specRecs]
  | cons f tl ih => intro base; simp [specRecs, ih]

theorem tryMap_val_map (fn : String × Buf → Option (String × Value))
    (hfn : ∀ k v, fn (k, Buf.val v) = some (k, v)) :
    ∀ f : Frame, tryMap fn (f.map (fun kv => (kv.1, Buf.val kv.2))) = some f := by
  intro f
  induction f with
  | nil => simp [tryMap]
  | cons kv tl ih =>
    obtain ⟨k, v⟩ := kv
    simp only [List.map_cons, tryMap, hfn, ih]

theorem assemble_write (F : List Nat) (prev n : Nat) (f : Frame) :
    (Writer.mk F prev n (f.map (fun kv => (kv.1, Buf.val kv.2))) [] none).assemble = some f := by
  apply tryMap_val_map
  intro k v
  rfl

theorem sync_write_clean (F : List Nat) (prev n : Nat) (f : Frame) :
    ((Writer.mk F prev n [] [] none).write f).sync =
      .ok ⟨F ++ frameBytesAt F.length prev f, F.length + frameIdxRel f, n + 1, [], [], none⟩ := by
  simp only [Writer.write, Writer.sync, Writer.arrsOf, List.nil_append]
  rw [show ((Writer.mk F prev n (f.map (fun kv => (kv.1, Buf.val kv.2))) [] none).assemble) =
    some f from assemble_write F prev n f]
  simp [Option.toList, List.all_nil]

theorem runFrames_arch : ∀ (fs : List Frame) (F : List Nat) (prev n : Nat),
    runFrames (Writer.mk F prev n [] [] none) fs =
      .ok ⟨archAux F prev fs, lastIdxAux F.length prev fs, n + fs.length, [], [], none⟩ := by
  intro fs
  induction fs with
  | nil => intro F prev n; simp [runFrames, archAux, lastIdxAux]
  | cons f tl ih =>
    intro F prev n
    rw [runFrames, sync_write_clean]
    dsimp only
    rw [ih]
    have hlen : (F ++ frameBytesAt F.length prev f).length = F.length + frameLen f := by
      simp [frameBytesAt_length]
    have hn : n + 1 + tl.length = n + (tl.length + 1) := by omega
    simp only [archAux, lastIdxAux, hlen, List.length_cons, hn]

theorem close_clean (F : List Nat) (prev n : Nat) :
    (Writer.mk F prev n [] [] none).close = .ok F := by
  simp [Writer.close]

theorem writeArchive_arch (fs : List Frame) :
    writeArchive fs = .ok (archBytes fs) := by
  simp only [writeArchive, openW, runFrames_arch]
  exact close_clean _ _ _

theorem close_write (F : List Nat) (prev n : Nat) (g : Frame) (hne : g ≠ []) :
    ((Writer.mk F prev n [] [] none).write g).close =
      .ok (F ++ frameBytesAt F.length prev g) := by
  obtain ⟨kv, tl, rfl⟩ := List.exists_cons_of_ne_nil hne
  have hs := sync_write_clean F prev n (kv :: tl)
  simp only [Writer.write, List.nil_append, List.map_cons] at hs ⊢
  simp only [Writer.close, List.isEmpty_cons, Bool.false_and, Bool.false_eq_true, if_false]
  rw [hs]

end Ulm

namespace Ulm

theorem tryMap_get {α β : Type} (f : α → Option β) :
    ∀ (l : List α) (l2 : List β), tryMap f l = some l2 →
    ∀ i : Nat, (l[i]?).bind f = l2[i]? := by
  intro l
  induction l with
  | nil =>
    intro l2 h i
    simp only [tryMap, Option.some.injEq] at h
    subst h
    simp
  | cons a tl ih =>
    intro l2 h i
    simp only [tryMap] at h
    cases hfa : f a with
    | none => rw [hfa] at h; exact absurd h (by simp)
    | some b =>
      rw [hfa] at h
      cases htl : tryMap f tl with
      | none => rw [htl] at h; exact absurd h (by simp)
      | some bs =>
        rw [htl] at h
        simp only [Option.some.injEq] at h
        subst h
        cases i with
        | zero => simp [hfa]
        | succ j => simpa using ih bs htl j

theorem lookup_matKVs (file : List Nat) : ∀ (rf : RFrame) (f : Frame),
    matKVs file rf = some f → ∀ key : String,
    ((rf.lookup key = none ∧ f.lookup key = none) ∨
     (∃ rv v, rf.lookup key = some rv ∧ f.lookup key = some v ∧
       matVal file rv = some v)) := by
  intro rf
  induction rf with
  | nil =>
    intro f h key
    simp only [matKVs, Option.some.injEq] at h
    subst h
    left
    simp [List.lookup]
  | cons kv tl ih =>
    obtain ⟨k, rv⟩ := kv
    intro f h key
    simp only [matKVs] at h
    cases hv : matVal file rv with
    | none => rw [hv] at h; exact absurd h (by simp)
    | some v =>
      rw [hv] at h
      cases htl : matKVs file tl with
      | none => rw [htl] at h; exact absurd h (by simp)
      | some tl2 =>
        rw [htl] at h
        simp only [Option.some.injEq] at h
        subst h
        cases hkey : key == k with
        | true =>
          right
          exact ⟨rv, v, by simp [List.lookup, hkey], by simp [List.lookup, hkey], hv⟩
        | false =>
          have := ih tl2 htl key
          simpa [List.lookup, hkey] using this

theorem reader_attr_correspond (file : List Nat) (rfs : List RFrame) (fs : List Frame)
    (h : tryMap (matKVs file) rfs = some fs) (i : Nat) (key : String) :
    (Reader.attrAt ⟨file, rfs, 0⟩ i key = (fs[i]?).bind (List.lookup key)) ∧
    (Reader.memAt ⟨file, rfs, 0⟩ i key = ((fs[i]?).bind (List.lookup key)).isSome) := by
  have hget := tryMap_get (matKVs file) rfs fs h i
  simp only [Reader.attrAt, Reader.attrAtR, Reader.memAt]
  cases hri : rfs[i]? with
  | none =>
    rw [hri] at hget
    simp only [Option.bind] at hget
    rw [← hget]
    simp
  | some rf =>
    rw [hri] at hget
    simp only [Option.bind] at hget
    dsimp only
    cases hmk : matKVs file rf with
    | none =>
      exfalso
      rw [hmk] at hget
      have hlen := tryMap_length (matKVs file) rfs fs h
      have hi : i < rfs.length := by
        by_contra hge
        rw [List.getElem?_eq_none (by omega)] at hri
        exact Option.noConfusion hri
      have hnone : fs[i]? = none := hget.symm
      rw [List.getElem?_eq_none_iff] at hnone
      omega
    | some f =>
      rw [hmk] at hget
      rcases lookup_matKVs file rf f hmk key with ⟨h1, h2⟩ | ⟨rv, v, h1, h2, h3⟩
      · rw [h1, ← hget]
        simp [h2]
      · rw [h1, ← hget]
        simp [h2, h3]

end Ulm

namespace Ulm

theorem openReader_arch (fs : List Frame) (hwf : wfFrames fs = true)
    (hB : (archBytes fs).length < 18446744073709551616) :
    ∃ r : Reader, openReader (archBytes fs) = some r ∧ r.file = archBytes fs ∧
      r.index = 0 ∧ r.frames.length = fs.length ∧ readValues r = some fs ∧
      (∀ (i : Nat) (key : String),
        r.attrAt i key = (fs[i]?).bind (List.lookup key)) ∧
      (∀ (i : Nat) (key : String),
        r.memAt i key = ((fs[i]?).bind (List.lookup key)).isSome) := by
  obtain ⟨t, ht⟩ := archAux_prefix fs headerBytes 0
  have htake : (archBytes fs).take 8 = headerBytes := by
    rw [archBytes, ht]
    exact List.take_left' headerBytes_length
  by_cases hne : fs = []
  · subst hne
    refine ⟨⟨headerBytes, [], 0⟩, ?_, rfl, rfl, rfl, rfl, ?_, ?_⟩
    · have hfile : archBytes ([] : List Frame) = headerBytes := rfl
      rw [hfile] at htake ⊢
      simp only [openReader]
      rw [if_pos htake, if_pos headerBytes_length]
    · intro i key
      simp [Reader.attrAt, Reader.attrAtR]
    · intro i key
      simp [Reader.memAt, Reader.attrAtR]
  · have hlen : (archBytes fs).length = 8 + sumLens fs := by
      rw [archBytes, archAux_length, headerBytes_length]
    have hslp := sumLens_pos fs hne
    have hne8 : ¬((archBytes fs).length = 8) := by omega
    have hidxle : lastIdxAux 8 0 fs ≤ 8 + sumLens fs := by
      have := lastIdxAux_le fs 8 0 (by omega)
      omega
    have htail := arch_tail fs headerBytes 0 hne
    rw [headerBytes_length] at htail
    have hdec8 : decNat 8 ((archBytes fs).drop ((archBytes fs).length - 8)) =
        some (lastIdxAux 8 0 fs, []) := by
      have h2 : (archBytes fs).drop ((archBytes fs).length - 8) =
          encNat 8 (lastIdxAux 8 0 fs) ++ [] := by
        rw [List.append_nil]
        exact htail
      rw [h2]
      exact decNat_encNat 8 _ [] (by norm_num; omega)
    have hchain := arch_chain fs headerBytes [] (archBytes fs).length hne
      (by have := sumLens_ge_length fs; omega) (by rw [headerBytes_length]) hwf hB
    have harch : archAux headerBytes 0 fs = archBytes fs := rfl
    rw [List.append_nil, harch, headerBytes_length] at hchain
    obtain ⟨hch, rfs, hdecs, hmats⟩ := hchain
    refine ⟨⟨archBytes fs, rfs, 0⟩, ?_, rfl, rfl, ?_, hmats, ?_, ?_⟩
    · simp only [openReader]
      rw [if_pos htake, if_neg hne8, hdec8]
      dsimp only
      rw [hch]
      dsimp only
      rw [hdecs]
    · have h1 := tryMap_length _ _ _ hdecs
      rw [specRecs_length] at h1
      exact h1
    · intro i key
      exact (reader_attr_correspond (archBytes fs) rfs fs hmats i key).1
    · intro i key
      exact (reader_attr_correspond (archBytes fs) rfs fs hmats i key).2

theorem openAppend_arch (fs : List Frame) (hwf : wfFrames fs = true)
    (hB : (archBytes fs).length < 18446744073709551616) :
    openAppend (archBytes fs) =
      some ⟨archBytes fs, lastIdxAux 8 0 fs, fs.length, [], [], none⟩ := by
  obtain ⟨t, ht⟩ := archAux_prefix fs headerBytes 0
  have htake : (archBytes fs).take 8 = headerBytes := by
    rw [archBytes, ht]
    exact List.take_left' headerBytes_length
  by_cases hne : fs = []
  · subst hne
    have hfile : archBytes ([] : List Frame) = headerBytes := rfl
    rw [hfile] at htake ⊢
    simp only [openAppend]
    rw [if_pos htake, if_pos headerBytes_length]
    rfl
  · have hlen : (archBytes fs).length = 8 + sumLens fs := by
      rw [archBytes, archAux_length, headerBytes_length]
    have hslp := sumLens_pos fs hne
    have hne8 : ¬((archBytes fs).length = 8) := by omega
    have hidxle : lastIdxAux 8 0 fs ≤ 8 + sumLens fs := by
      have := lastIdxAux_le fs 8 0 (by omega)
      omega
    have htail := arch_tail fs headerBytes 0 hne
    rw [headerBytes_length] at htail
    have hdec8 : decNat 8 ((archBytes fs).drop ((archBytes fs).length - 8)) =
        some (lastIdxAux 8 0 fs, []) := by
      have h2 : (archBytes fs).drop ((archBytes fs).length - 8) =
          encNat 8 (lastIdxAux 8 0 fs) ++ [] := by
        rw [List.append_nil]
        exact htail
      rw [h2]
      exact decNat_encNat 8 _ [] (by norm_num; omega)
    have hchain := arch_chain fs headerBytes [] (archBytes fs).length hne
      (by have := sumLens_ge_length fs; omega) (by rw [headerBytes_length]) hwf hB
    have harch : archAux headerBytes 0 fs = archBytes fs := rfl
    rw [List.append_nil, harch, headerBytes_length] at hchain
    obtain ⟨hch, _, _, _⟩ := hchain
    simp only [openAppend]
    rw [if_pos htake, if_neg hne8, hdec8]
    dsimp only
    rw [hch]
    dsimp only
    rw [specRecs_length]

end Ulm

namespace Ulm

theorem appendFrame_arch (fs : List Frame) (g : Frame) (hwf : wfFrames fs = true)
    (hg : g ≠ []) (hB : (archBytes fs).length < 18446744073709551616) :
    appendFrame (archBytes fs) g = some (archBytes (fs ++ [g])) := by
  simp only [appendFrame]
  rw [openAppend_arch fs hwf hB]
  dsimp only
  rw [close_write _ _ _ g hg]
  dsimp only
  have h2 : archBytes (fs ++ [g]) =
      archBytes fs ++ frameBytesAt (archBytes fs).length (lastIdxAux 8 0 fs) g := by
    rw [archBytes, archAux_append, headerBytes_length]
    rfl
  rw [h2]

theorem fill_overfill (w : Writer) (c : CurArr) (chunk : List (List Int))
    (hcur : w.cur = some c)
    (hover : c.shape.headD 0 < c.rows.length + chunk.length) :
    w.fill chunk = .error .overfill := by
  simp only [Writer.fill, hcur]
  rw [if_pos hover]

theorem fillS_overfill (w : Writer) (c : CurArr) (chunk : List (List Int))
    (hcur : w.cur = some c)
    (hover : c.shape.headD 0 < c.rows.length + chunk.length) :
    w.fillS chunk = (w, some .overfill) := by
  simp only [Writer.fillS]
  rw [fill_overfill w c chunk hcur hover]

theorem fill_ok (w : Writer) (c : CurArr) (chunk : List (List Int))
    (hcur : w.cur = some c)
    (hfit : c.rows.length + chunk.length ≤ c.shape.headD 0)
    (hwide : ∀ row ∈ chunk, row.length = rowWidth c.shape) :
    w.fill chunk = .ok { w with cur := some { c with rows := c.rows ++ chunk } } := by
  simp only [Writer.fill, hcur]
  rw [if_neg (by omega)]
  rw [if_pos]
  simp only [List.all_eq_true]
  intro row hrow
  simp [hwide row hrow]

theorem runFills_eq_fill : ∀ (chunks : List (List (List Int))) (w : Writer) (c : CurArr),
    w.cur = some c →
    (∀ ch ∈ chunks, ∀ row ∈ ch, row.length = rowWidth c.shape) →
    c.rows.length + chunks.flatten.length ≤ c.shape.headD 0 →
    runFills w chunks = w.fill chunks.flatten := by
  intro chunks
  induction chunks with
  | nil =>
    intro w c hcur hwide hfit
    simp only [List.flatten_nil] at hfit ⊢
    rw [fill_ok w c [] hcur (by simpa using hfit) (by simp)]
    simp only [runFills, List.append_nil]
    cases w with
    | mk data prevIdx nitems buffered done cur =>
      simp only [Writer.cur] at hcur
      subst hcur
      rfl
  | cons ch rest ih =>
    intro w c hcur hwide hfit
    simp only [List.flatten_cons, List.length_append] at hfit ⊢
    have hwch : ∀ row ∈ ch, row.length = rowWidth c.shape :=
      fun row hrow => hwide ch (by simp) row hrow
    have h1 := fill_ok w c ch hcur (by omega) hwch
    simp only [runFills]
    rw [h1]
    dsimp only
    have hcur2 : ({ w with cur := some { c with rows := c.rows ++ ch } } : Writer).cur =
        some { c with rows := c.rows ++ ch } := rfl
    have hwideR : ∀ row ∈ rest.flatten, row.length = rowWidth c.shape := by
      intro row hrow
      rcases List.mem_flatten.mp hrow with ⟨l, hl, hrl⟩
      exact hwide l (by simp [hl]) row hrl
    have hwideR2 : ∀ ch2 ∈ rest, ∀ row ∈ ch2, row.length = rowWidth c.shape := by
      intro ch2 hch2 row hrow
      exact hwide ch2 (by simp [hch2]) row hrow
    have hfitR : (c.rows ++ ch).length + rest.flatten.length ≤ c.shape.headD 0 := by
      simp only [List.length_append]
      omega
    have hrest := ih { w with cur := some { c with rows := c.rows ++ ch } }
      { c with rows := c.rows ++ ch } hcur2 hwideR2 hfitR
    rw [hrest]
    rw [fill_ok _ _ _ hcur2 hfitR hwideR]
    have hfitT : c.rows.length + (ch ++ rest.flatten).length ≤ c.shape.headD 0 := by
      simp only [List.length_append]
      omega
    have hwideT : ∀ row ∈ ch ++ rest.flatten, row.length = rowWidth c.shape := by
      intro row hrow
      rcases List.mem_append.mp hrow with h | h
      · exact hwch row h
      · exact hwideR row h
    rw [fill_ok w c _ hcur hfitT hwideT]
    simp [List.append_assoc]

end Ulm

namespace Ulm

theorem decNat_of_le : ∀ (k : Nat) (bs : List Nat), k ≤ bs.length →
    ∃ v, decNat k bs = some (v, bs.drop k) := by
  intro k
  induction k with
  | zero => intro bs _; exact ⟨0, by simp [decNat]⟩
  | succ k ih =>
    intro bs hlen
    cases bs with
    | nil => simp at hlen
    | cons b tl =>
      obtain ⟨v, hv⟩ := ih tl (by simpa using hlen)
      exact ⟨b + 256 * v, by simp [decNat, hv]⟩

theorem decInt_of_le (bs : List Nat) (h : 8 ≤ bs.length) :
    ∃ i, decInt bs = some (i, bs.drop 8) := by
  obtain ⟨v, hv⟩ := decNat_of_le 8 bs h
  refine ⟨if v < 9223372036854775808 then (v : Int) else (v : Int) - 18446744073709551616, ?_⟩
  simp [decInt, hv]

theorem decInts_of_le : ∀ (k : Nat) (bs : List Nat), 8 * k ≤ bs.length →
    ∃ row, decInts k bs = some (row, bs.drop (8 * k)) ∧ row.length = k := by
  intro k
  induction k with
  | zero => intro bs _; exact ⟨[], by simp [decInts], rfl⟩
  | succ k ih =>
    intro bs hlen
    obtain ⟨i, hi⟩ := decInt_of_le bs (by omega)
    obtain ⟨row, hrow, hrl⟩ := ih (bs.drop 8) (by simp; omega)
    refine ⟨i :: row, ?_, by simp [hrl]⟩
    rw [decInts, hi]
    dsimp only
    rw [hrow, List.drop_drop, show (8:Nat) + 8 * k = 8 * (k + 1) from by ring]

theorem decNat_rest : ∀ (k : Nat) (bs r : List Nat) (v : Nat),
    decNat k bs = some (v, r) → r = bs.drop k := by
  intro k
  induction k with
  | zero =>
    intro bs r v h
    simp only [decNat, Option.some.injEq, Prod.mk.injEq] at h
    simp [← h.2]
  | succ k ih =>
    intro bs r v h
    cases bs with
    | nil => simp [decNat] at h
    | cons b tl =>
      simp only [decNat] at h
      cases hd : decNat k tl with
      | none => rw [hd] at h; simp at h
      | some p =>
        obtain ⟨v2, r2⟩ := p
        rw [hd] at h
        simp only [Option.some.injEq, Prod.mk.injEq] at h
        rw [List.drop_succ_cons, ← h.2]
        exact ih tl r2 v2 hd

theorem decInt_rest (bs r : List Nat) (i : Int) (h : decInt bs = some (i, r)) :
    r = bs.drop 8 := by
  simp only [decInt] at h
  cases hn : decNat 8 bs with
  | none => rw [hn] at h; simp at h
  | some p =>
    obtain ⟨v, r2⟩ := p
    rw [hn] at h
    simp only [Option.some.injEq, Prod.mk.injEq] at h
    rw [← h.2]
    exact decNat_rest 8 bs r2 v hn

theorem decInts_rest : ∀ (k : Nat) (bs : List Nat) (row : List Int) (rest : List Nat),
    decInts k bs = some (row, rest) → rest = bs.drop (8 * k) ∧ row.length = k := by
  intro k
  induction k with
  | zero =>
    intro bs row rest h
    simp only [decInts, Option.some.injEq, Prod.mk.injEq] at h
    simp [← h.1, ← h.2]
  | succ k ih =>
    intro bs row rest h
    simp only [decInts] at h
    cases hi : decInt bs with
    | none => rw [hi] at h; simp at h
    | some p =>
      obtain ⟨i, r⟩ := p
      rw [hi] at h
      dsimp only at h
      cases hr : decInts k r with
      | none => rw [hr] at h; simp at h
      | some p2 =>
        obtain ⟨is, rest2⟩ := p2
        rw [hr] at h
        simp only [Option.some.injEq, Prod.mk.injEq] at h
        obtain ⟨hr1, hr2⟩ := ih r is rest2 hr
        have hdi : r = bs.drop 8 := decInt_rest bs r i hi
        subst hdi
        constructor
        · rw [← h.2, hr1, List.drop_drop, show (8:Nat) + 8 * k = 8 * (k + 1) from by ring]
        · simp [← h.1, hr2]

end Ulm

namespace Ulm

theorem decRows_of_le : ∀ (count w : Nat) (bs : List Nat), count * (8 * w) ≤ bs.length →
    ∃ rows, decRows w count bs = some (rows, bs.drop (count * (8 * w))) ∧
      rows.length = count := by
  intro count
  induction count with
  | zero => intro w bs _; exact ⟨[], by simp [decRows], rfl⟩
  | succ count ih =>
    intro w bs hlen
    rw [Nat.succ_mul] at hlen
    obtain ⟨row, hrow, _⟩ := decInts_of_le w bs (le_trans (Nat.le_add_left _ _) hlen)
    obtain ⟨rows, hrows, hrl⟩ := ih w (bs.drop (8 * w))
      (by rw [List.length_drop]; exact Nat.le_sub_of_add_le hlen)
    refine ⟨row :: rows, ?_, by simp [hrl]⟩
    rw [decRows, hrow]
    dsimp only
    rw [hrows, List.drop_drop,
      show 8 * w + count * (8 * w) = (count + 1) * (8 * w) from by ring]

theorem decRows_drop : ∀ (a count w : Nat) (bs : List Nat) (rows : List (List Int))
    (rest : List Nat), decRows w count bs = some (rows, rest) → a ≤ count →
    decRows w (count - a) (bs.drop (a * (8 * w))) = some (rows.drop a, rest) := by
  intro a
  induction a with
  | zero =>
    intro count w bs rows rest h _
    simpa using h
  | succ a ih =>
    intro count w bs rows rest h hle
    cases count with
    | zero => omega
    | succ count =>
      simp only [decRows] at h
      cases hi : decInts w bs with
      | none => rw [hi] at h; simp at h
      | some p =>
        obtain ⟨row, r⟩ := p
        rw [hi] at h
        dsimp only at h
        cases hr : decRows w count r with
        | none => rw [hr] at h; simp at h
        | some p2 =>
          obtain ⟨rows2, rest2⟩ := p2
          rw [hr] at h
          simp only [Option.some.injEq, Prod.mk.injEq] at h
          obtain ⟨hdi, _⟩ := decInts_rest w bs row r hi
          subst hdi
          have := ih count w (bs.drop (8 * w)) rows2 rest2 (by rw [hr, h.2]) (by omega)
          rw [List.drop_drop,
            show 8 * w + a * (8 * w) = (a + 1) * (8 * w) from by ring] at this
          rw [show count + 1 - (a + 1) = count - a from by omega, this, ← h.1]
          simp [h.2]

theorem decRows_take : ∀ (b count w : Nat) (bs : List Nat) (rows : List (List Int))
    (rest : List Nat), decRows w count bs = some (rows, rest) → b ≤ count →
    ∃ rest2, decRows w b bs = some (rows.take b, rest2) := by
  intro b
  induction b with
  | zero =>
    intro count w bs rows rest _ _
    exact ⟨bs, by simp [decRows]⟩
  | succ b ih =>
    intro count w bs rows rest h hle
    cases count with
    | zero => omega
    | succ count =>
      simp only [decRows] at h
      cases hi : decInts w bs with
      | none => rw [hi] at h; simp at h
      | some p =>
        obtain ⟨row, r⟩ := p
        rw [hi] at h
        dsimp only at h
        cases hr : decRows w count r with
        | none => rw [hr] at h; simp at h
        | some p2 =>
          obtain ⟨rows2, rest2⟩ := p2
          rw [hr] at h
          simp only [Option.some.injEq, Prod.mk.injEq] at h
          obtain ⟨rest3, hrest3⟩ := ih count w r rows2 rest2 hr (by omega)
          refine ⟨rest3, ?_⟩
          rw [decRows, hi]
          dsimp only
          rw [hrest3, ← h.1]
          simp

theorem proxy_slice_whole (p : ArrProxy) (a b : Nat) (hab : a ≤ b)
    (hbn : b ≤ p.shape.headD 0)
    (hlen : p.off + p.shape.headD 0 * (8 * rowWidth p.shape) ≤ p.file.length) :
    p.slice a b = (p.whole).map (fun rows => (rows.drop a).take (b - a)) := by
  obtain ⟨rows, hrows, hrl⟩ := decRows_of_le (p.shape.headD 0) (rowWidth p.shape)
    (p.file.drop p.off) (by rw [List.length_drop]; omega)
  have hwhole : p.whole = some rows := by
    simp only [ArrProxy.whole, ArrProxy.slice, Nat.sub_zero, Nat.zero_mul, Nat.add_zero]
    rw [hrows]
  have hdropped : p.file.drop (p.off + a * (8 * rowWidth p.shape)) =
      (p.file.drop p.off).drop (a * (8 * rowWidth p.shape)) := by
    rw [List.drop_drop]
  have hd := decRows_drop a (p.shape.headD 0) (rowWidth p.shape)
    (p.file.drop p.off) rows _ hrows (le_trans hab hbn)
  obtain ⟨rest2, ht⟩ := decRows_take (b - a) (p.shape.headD 0 - a) (rowWidth p.shape)
    ((p.file.drop p.off).drop (a * (8 * rowWidth p.shape))) (rows.drop a) _ hd (by omega)
  simp only [ArrProxy.slice]
  rw [hdropped, ht, hwhole]
  simp

end Ulm

namespace Ulm

theorem excl_deep : ∀ n : Nat,
    (∀ (v : Value) (path : List String), sizeV v ≤ n → path ≠ [] →
      exclVal [["a"]] path v = v) ∧
    (∀ (kvs : List (String × Value)) (path : List String), sizeKVs kvs ≤ n → path ≠ [] →
      exclKVs [["a"]] path kvs = kvs) := by
  intro n
  induction n with
  | zero =>
    constructor
    · intro v path hs _
      exact absurd hs (by have := sizeV_pos v; omega)
    · intro kvs path hs _
      cases kvs with
      | nil => simp [exclKVs]
      | cons kv tl => exact absurd hs (by have := sizeV_pos kv.2; simp only [sizeKVs]; omega)
  | succ n ih =>
    obtain ⟨ihV, ihK⟩ := ih
    constructor
    · intro v path hs hpath
      cases v with
      | dict kvs =>
        have : sizeKVs kvs ≤ n := by simp only [sizeV] at hs; omega
        simp only [exclVal]
        rw [ihK kvs path this hpath]
      | int i => rfl
      | float w => rfl
      | bool b => rfl
      | null => rfl
      | str s => rfl
      | arr dt shape data => rfl
    · intro kvs path hs hpath
      cases kvs with
      | nil => simp [exclKVs]
      | cons kv tl =>
        obtain ⟨k, v⟩ := kv
        have hne2 : path ++ [k] ≠ ["a"] := by
          intro he
          have hl := congrArg List.length he
          simp only [List.length_append, List.length_cons, List.length_nil] at hl
          have hz : path.length = 0 := by omega
          exact hpath (List.length_eq_zero.mp hz)
        have hc : ([["a"]] : List (List String)).contains (path ++ [k]) = false := by
          simpa using hne2
        have hsv : sizeV v ≤ n := by simp only [sizeKVs] at hs; omega
        have hst : sizeKVs tl ≤ n := by simp only [sizeKVs] at hs; omega
        simp only [exclKVs, hc, Bool.false_eq_true, if_false]
        rw [ihV v (path ++ [k]) hsv (by simp), ihK tl path hst hpath]

theorem exclFrame_a : ∀ f : Frame,
    exclFrame [["a"]] f = f.filter (fun kv => !(kv.1 == "a")) := by
  intro f
  induction f with
  | nil => rfl
  | cons kv tl ih =>
    obtain ⟨k, v⟩ := kv
    simp only [exclFrame] at ih ⊢
    cases hk : k == "a" with
    | true =>
      have hk2 : k = "a" := by simpa using hk
      subst hk2
      have hc : ([["a"]] : List (List String)).contains ([] ++ ["a"]) = true := by simp
      simp only [exclKVs, hc, if_true, List.filter_cons, hk]
      simpa using ih
    | false =>
      have hc : ([["a"]] : List (List String)).contains ([] ++ [k]) = false := by
        simpa using hk
      simp only [exclKVs, hc, Bool.false_eq_true, if_false, List.filter_cons, hk]
      rw [(excl_deep (sizeV v)).1 v ([] ++ [k]) (le_refl _) (by simp)]
      rw [ih]
      simp

end Ulm

namespace Ulm

theorem wfKVs_filter (pred : String × Value → Bool) : ∀ f : Frame,
    wfKVs f = true → wfKVs (f.filter pred) = true := by
  intro f
  induction f with
  | nil => intro _; rfl
  | cons kv tl ih =>
    intro h
    obtain ⟨k, v⟩ := kv
    simp only [wfKVs, Bool.and_eq_true] at h
    obtain ⟨⟨h1, h2⟩, h3⟩ := h
    simp only [List.filter_cons]
    cases pred (k, v) with
    | false => exact ih h3
    | true =>
      simp only [if_true, wfKVs, Bool.and_eq_true]
      exact ⟨⟨h1, h2⟩, ih h3⟩

theorem wfFrame_filter (pred : String × Value → Bool) (f : Frame)
    (h : wfFrame f = true) : wfFrame (f.filter pred) = true := by
  simp only [wfFrame, Bool.and_eq_true, decide_eq_true_eq] at h ⊢
  obtain ⟨h1, h2⟩ := h
  have := List.length_filter_le pred f
  exact ⟨by omega, wfKVs_filter pred f h2⟩

theorem wfFrames_filter (pred : String × Value → Bool) : ∀ fs : List Frame,
    wfFrames fs = true →
    wfFrames (fs.map (fun f => f.filter pred)) = true := by
  intro fs
  induction fs with
  | nil => intro _; rfl
  | cons f tl ih =>
    intro h
    simp only [wfFrames, List.all_cons, Bool.and_eq_true] at h
    simp only [List.map_cons, wfFrames, List.all_cons, Bool.and_eq_true]
    refine ⟨wfFrame_filter pred f h.1, ?_⟩
    simpa [wfFrames] using ih (by simpa [wfFrames] using h.2)

theorem lookup_filter_self : ∀ f : Frame,
    (f.filter (fun kv => !(kv.1 == "a"))).lookup "a" = none := by
  intro f
  induction f with
  | nil => rfl
  | cons kv tl ih =>
    obtain ⟨k, v⟩ := kv
    simp only [List.filter_cons]
    cases hk : k == "a" with
    | true =>
      simp only [hk, Bool.not_true, Bool.false_eq_true, if_false]
      exact ih
    | false =>
      simp only [hk, Bool.not_false, if_true]
      have hk2 : ("a" == k) = false := by
        simp only [beq_eq_false_iff_ne] at hk ⊢
        exact fun he => hk he.symm
      simp only [List.lookup, hk2]
      exact ih

theorem lookup_filter_ne (key : String) (hkey : key ≠ "a") : ∀ f : Frame,
    (f.filter (fun kv => !(kv.1 == "a"))).lookup key = f.lookup key := by
  intro f
  induction f with
  | nil => rfl
  | cons kv tl ih =>
    obtain ⟨k, v⟩ := kv
    simp only [List.filter_cons]
    cases hk : k == "a" with
    | true =>
      have hk2 : k = "a" := by simpa using hk
      subst hk2
      have hkk : (key == "a") = false := by simpa using hkey
      simp only [Bool.not_true, Bool.false_eq_true, if_false, List.lookup, hkk]
      exact ih
    | false =>
      simp only [hk, Bool.not_false, if_true, List.lookup]
      cases hkk : key == k with
      | true => rfl
      | false => exact ih

end Ulm

namespace Ulm

theorem copy_excl_arch (fs : List Frame) (hwf : wfFrames fs = true)
    (hB1 : (archBytes fs).length < 18446744073709551616)
    (hB2 : (archBytes (fs.map (fun f => f.filter (fun kv => !(kv.1 == "a"))))).length <
      18446744073709551616) :
    ∃ (dst : List Nat) (r : Reader), copyArchive (archBytes fs) [["a"]] = some dst ∧
      dst = archBytes (fs.map (fun f => f.filter (fun kv => !(kv.1 == "a")))) ∧
      openReader dst = some r ∧
      readValues r = some (fs.map (fun f => f.filter (fun kv => !(kv.1 == "a")))) ∧
      r.frames.length = fs.length ∧
      (∀ i : Nat, r.memAt i "a" = false) ∧
      (∀ (i : Nat) (key : String), key ≠ "a" →
        r.attrAt i key = (fs[i]?).bind (List.lookup key)) := by
  obtain ⟨r0, hopen0, _, _, _, hvals0, _, _⟩ := openReader_arch fs hwf hB1
  have hmapeq : fs.map (exclFrame [["a"]]) =
      fs.map (fun f => f.filter (fun kv => !(kv.1 == "a"))) := by
    apply List.map_congr_left
    intro f _
    exact exclFrame_a f
  have hwf2 : wfFrames (fs.map (fun f => f.filter (fun kv => !(kv.1 == "a")))) = true :=
    wfFrames_filter _ fs hwf
  obtain ⟨r, hopen, hfile, hidx, hflen, hvals, hattr, hmem⟩ := openReader_arch
    (fs.map (fun f => f.filter (fun kv => !(kv.1 == "a")))) hwf2 hB2
  refine ⟨archBytes (fs.map (fun f => f.filter (fun kv => !(kv.1 == "a")))), r, ?_, rfl,
    hopen, hvals, ?_, ?_, ?_⟩
  · simp only [copyArchive]
    rw [hopen0]
    dsimp only
    rw [hvals0]
    dsimp only
    rw [hmapeq, writeArchive_arch]
  · rw [hflen, List.length_map]
  · intro i
    rw [hmem i "a"]
    rw [List.getElem?_map]
    cases hfi : fs[i]? with
    | none => rfl
    | some f =>
      simp [lookup_filter_self f]
  · intro i key hkey
    rw [hattr i key]
    rw [List.getElem?_map]
    cases hfi : fs[i]? with
    | none => rfl
    | some f =>
      simp [lookup_filter_ne key hkey f]

end Ulm

/-- C1: Round-trip of write/sync/close then open.  Universally, every
well-formed frame sequence written through the writer produces the
canonical archive bytes, and reopening reproduces every value bit-for-bit;
concretely, the fixture op sequence (frame 0 = a/y/s via two writes, frames
1 and 2 via sync, frame 2 committed only by close) yields an archive whose
reader gives y = 9 and s = 'abc' in frame 0, s = 'abc2' in frame 1, and
s = 'abc3', z = ones(7, int) in frame 2. -/
theorem ulm_C1_roundtrip :
    (∀ fs : List Ulm.Frame, Ulm.wfFrames fs = true →
      (Ulm.archBytes fs).length < 18446744073709551616 →
      Ulm.writeArchive fs = .ok (Ulm.archBytes fs) ∧
      ∃ r : Ulm.Reader, Ulm.openReader (Ulm.archBytes fs) = some r ∧
        Ulm.readValues r = some fs) ∧
    (Ulm.demoOps = .ok Ulm.demoFile ∧
     ((Ulm.openReader Ulm.demoFile).bind Ulm.readValues) = some Ulm.demoFrames ∧
     ((Ulm.openReader Ulm.demoFile).bind (fun r => r.attr "y")) = some (.int 9) ∧
     ((Ulm.openReader Ulm.demoFile).bind (fun r => r.attr "s")) = some (.str "abc") ∧
     ((Ulm.openReader Ulm.demoFile).bind (fun r => r.attrAt 1 "s")) = some (.str "abc2") ∧
     ((Ulm.openReader Ulm.demoFile).bind (fun r => r.attrAt 2 "s")) = some (.str "abc3") ∧
     ((Ulm.openReader Ulm.demoFile).bind (fun r => r.attrAt 2 "z")) =
       some (.arr .int64 [7] (List.replicate 7 1))) := by
  constructor
  · intro fs hwf hB
    refine ⟨Ulm.writeArchive_arch fs, ?_⟩
    obtain ⟨r, hopen, _, _, _, hvals, _, _⟩ := Ulm.openReader_arch fs hwf hB
    exact ⟨r, hopen, hvals⟩
  · exact ⟨rfl, rfl, rfl, rfl, rfl, rfl, rfl⟩

/-- Witness for C1: the universal round-trip instantiated at the concrete
three-frame fixture archive. -/
theorem ulm_C1_roundtrip_witness :
    Ulm.writeArchive Ulm.demoFrames = .ok (Ulm.archBytes Ulm.demoFrames) ∧
    ∃ r : Ulm.Reader, Ulm.openReader (Ulm.archBytes Ulm.demoFrames) = some r ∧
      Ulm.readValues r = some Ulm.demoFrames :=
  ulm_C1_roundtrip.1 Ulm.demoFrames (by decide) (by decide)

/-- C2 counterexample: in the three-frame fixture archive, a reader opened
without an index targets frame 0, not the last frame: its default s is
'abc' (frame 0's value) while frame 2 holds 'abc3', so default attribute
access does not return the value stored in frame N-1. -/
theorem ulm_C2_counterexample :
    ∃ r : Ulm.Reader, Ulm.openReader Ulm.demoFile = some r ∧ 2 ≤ r.frames.length ∧
      r.attr "s" = some (.str "abc") ∧
      r.attrAt (r.frames.length - 1) "s" = some (.str "abc3") ∧
      r.attr "s" ≠ r.attrAt (r.frames.length - 1) "s" := by
  refine ⟨(Ulm.openReader Ulm.demoFile).getD ⟨[], [], 0⟩, rfl, by decide, rfl, rfl, ?_⟩
  intro h
  have h2 : some (Ulm.Value.str "abc") = some (Ulm.Value.str "abc3") := h
  simp at h2

/-- C2 (amended): a reader opened with index=None targets frame 0 for
default attribute access, returning frame 0's stored value, while
archive[i] gives access to every frame i. -/
theorem ulm_C2_default_first_frame (fs : List Ulm.Frame)
    (hwf : Ulm.wfFrames fs = true)
    (hB : (Ulm.archBytes fs).length < 18446744073709551616) (r : Ulm.Reader)
    (hopen : Ulm.openReader (Ulm.archBytes fs) = some r) :
    r.index = 0 ∧ (∀ key, r.attr key = r.attrAt 0 key) ∧
    (∀ key, r.attr key = (fs[0]?).bind (List.lookup key)) ∧
    (∀ (i : Nat) (key : String), r.attrAt i key = (fs[i]?).bind (List.lookup key)) ∧
    r.frames.length = fs.length := by
  obtain ⟨r2, hopen2, _, hidx, hlen, _, hattr, _⟩ := Ulm.openReader_arch fs hwf hB
  rw [hopen2] at hopen
  obtain rfl : r2 = r := by injection hopen
  refine ⟨hidx, ?_, ?_, hattr, hlen⟩
  · intro key
    simp [Ulm.Reader.attr, hidx]
  · intro key
    simp only [Ulm.Reader.attr, hidx]
    exact hattr 0 key

/-- Witness for C2 (amended): instantiated at the fixture archive. -/
theorem ulm_C2_default_first_frame_witness :
    ((Ulm.openReader Ulm.demoFile).getD ⟨[], [], 0⟩).index = 0 ∧
    (∀ key, ((Ulm.openReader Ulm.demoFile).getD ⟨[], [], 0⟩).attr key =
      ((Ulm.openReader Ulm.demoFile).getD ⟨[], [], 0⟩).attrAt 0 key) ∧
    (∀ key, ((Ulm.openReader Ulm.demoFile).getD ⟨[], [], 0⟩).attr key =
      (Ulm.demoFrames[0]?).bind (List.lookup key)) ∧
    (∀ (i : Nat) (key : String), ((Ulm.openReader Ulm.demoFile).getD ⟨[], [], 0⟩).attrAt i key =
      (Ulm.demoFrames[i]?).bind (List.lookup key)) ∧
    ((Ulm.openReader Ulm.demoFile).getD ⟨[], [], 0⟩).frames.length =
      Ulm.demoFrames.length :=
  ulm_C2_default_first_frame Ulm.demoFrames (by decide) (by decide) _ rfl

/-- C3: appending one frame to an M-frame archive (append-mode open, write,
close) yields exactly M+1 frames in the original order: the new file keeps
the old file as an unchanged byte prefix (frames 0..M-1 byte-identical),
and every value readable from frames 0..M-1 before the append reads back
equal afterwards. -/
theorem ulm_C3_append (fs : List Ulm.Frame) (g : Ulm.Frame)
    (hwf : Ulm.wfFrames fs = true) (hwfg : Ulm.wfFrame g = true) (hg : g ≠ [])
    (hB : (Ulm.archBytes fs).length < 18446744073709551616)
    (hB2 : (Ulm.archBytes (fs ++ [g])).length < 18446744073709551616) :
    Ulm.appendFrame (Ulm.archBytes fs) g = some (Ulm.archBytes (fs ++ [g])) ∧
    (Ulm.archBytes (fs ++ [g])).take (Ulm.archBytes fs).length = Ulm.archBytes fs ∧
    ∃ r : Ulm.Reader, Ulm.openReader (Ulm.archBytes (fs ++ [g])) = some r ∧
      r.frames.length = fs.length + 1 ∧
      Ulm.readValues r = some (fs ++ [g]) ∧
      (∀ (i : Nat) (key : String), i < fs.length →
        r.attrAt i key = (fs[i]?).bind (List.lookup key)) := by
  have hwf2 : Ulm.wfFrames (fs ++ [g]) = true := by
    simp only [Ulm.wfFrames, List.all_append, List.all_cons, List.all_nil,
      Bool.and_eq_true, and_true] at *
    exact ⟨hwf, hwfg⟩
  refine ⟨Ulm.appendFrame_arch fs g hwf hg hB, ?_, ?_⟩
  · rw [show Ulm.archBytes (fs ++ [g]) = Ulm.archBytes fs ++
      Ulm.frameBytesAt (Ulm.archBytes fs).length
        (Ulm.lastIdxAux Ulm.headerBytes.length 0 fs) g
      from Ulm.archAux_append fs g Ulm.headerBytes 0]
    exact List.take_left _ _
  · obtain ⟨r, hopen, _, _, hlen, hvals, hattr, _⟩ := Ulm.openReader_arch (fs ++ [g]) hwf2 hB2
    refine ⟨r, hopen, by simpa using hlen, hvals, ?_⟩
    intro i key hi
    rw [hattr i key, List.getElem?_append_left hi]

/-- Witness for C3: the append test's frame (d plus the filled psi array)
appended to the three-frame fixture archive. -/
theorem ulm_C3_append_witness :
    Ulm.appendFrame (Ulm.archBytes Ulm.demoFrames) Ulm.demoFrame3 =
      some (Ulm.archBytes (Ulm.demoFrames ++ [Ulm.demoFrame3])) ∧
    (Ulm.archBytes (Ulm.demoFrames ++ [Ulm.demoFrame3])).take
      (Ulm.archBytes Ulm.demoFrames).length = Ulm.archBytes Ulm.demoFrames ∧
    ∃ r : Ulm.Reader,
      Ulm.openReader (Ulm.archBytes (Ulm.demoFrames ++ [Ulm.demoFrame3])) = some r ∧
      r.frames.length = Ulm.demoFrames.length + 1 ∧
      Ulm.readValues r = some (Ulm.demoFrames ++ [Ulm.demoFrame3]) ∧
      (∀ (i : Nat) (key : String), i < Ulm.demoFrames.length →
        r.attrAt i key = (Ulm.demoFrames[i]?).bind (List.lookup key)) :=
  ulm_C3_append Ulm.demoFrames Ulm.demoFrame3 (by decide) (by decide)
    (List.cons_ne_nil _ _) (by decide) (by decide)

/-- C4: incremental fill equivalence.  Universally, filling a declared
array by any sequence of row chunks (matching row width, total rows within
the declared leading dimension) leaves the writer in exactly the state of
one single fill of the concatenated data; concretely, the append test's
chunked run and its single-fill variant produce the identical archive, from
which psi reads back rows 1,1 / 2,2 / 3,3 / 3,3. -/
theorem ulm_C4_fill_chunks :
    (∀ (chunks : List (List (List Int))) (w : Ulm.Writer) (c : Ulm.CurArr),
      w.cur = some c →
      (∀ ch ∈ chunks, ∀ row ∈ ch, row.length = Ulm.rowWidth c.shape) →
      c.rows.length + chunks.flatten.length ≤ c.shape.headD 0 →
      Ulm.runFills w chunks = w.fill chunks.flatten) ∧
    (Ulm.demoAppendFile = Ulm.demoAppendFileSingle ∧
     Ulm.demoAppendFile = some Ulm.demoAppendedBytes ∧
     Ulm.demoPsiProxy.whole = some [[1, 1], [2, 2], [3, 3], [3, 3]]) :=
  ⟨Ulm.runFills_eq_fill, rfl, rfl, rfl⟩

/-- Witness for C4: the universal chunk equivalence instantiated at the
append test's three chunks on a freshly declared (4,2) array. -/
theorem ulm_C4_fill_chunks_witness :
    Ulm.runFills Ulm.demoEmptyPsiWriter Ulm.demoChunks =
      Ulm.demoEmptyPsiWriter.fill Ulm.demoChunks.flatten :=
  ulm_C4_fill_chunks.1 Ulm.demoChunks Ulm.demoEmptyPsiWriter
    ⟨[4, 2], .int64, []⟩ rfl (by decide) (by decide)

/-- C5: selective copy exclusion.  Copying any written archive with
exclude = {'.a'} produces an archive whose frames are the source frames
with the top-level key 'a' removed, in the same frame order and per-frame
key order: 'a' is absent from every destination frame, and every other key
reads back with its source value. -/
theorem ulm_C5_copy_exclude (fs : List Ulm.Frame) (hwf : Ulm.wfFrames fs = true)
    (hB1 : (Ulm.archBytes fs).length < 18446744073709551616)
    (hB2 : (Ulm.archBytes (fs.map (fun f => f.filter (fun kv => !(kv.1 == "a"))))).length <
      18446744073709551616) :
    ∃ (dst : List Nat) (r : Ulm.Reader),
      Ulm.copyArchive (Ulm.archBytes fs) [["a"]] = some dst ∧
      dst = Ulm.archBytes (fs.map (fun f => f.filter (fun kv => !(kv.1 == "a")))) ∧
      Ulm.openReader dst = some r ∧
      Ulm.readValues r = some (fs.map (fun f => f.filter (fun kv => !(kv.1 == "a")))) ∧
      r.frames.length = fs.length ∧
      (∀ i : Nat, r.memAt i "a" = false) ∧
      (∀ (i : Nat) (key : String), key ≠ "a" →
        r.attrAt i key = (fs[i]?).bind (List.lookup key)) :=
  Ulm.copy_excl_arch fs hwf hB1 hB2

/-- Witness for C5: copy of the fixture archive with exclude = {'.a'};
frame 0 loses its key 'a' and keeps y and s. -/
theorem ulm_C5_copy_exclude_witness :
    ∃ (dst : List Nat) (r : Ulm.Reader),
      Ulm.copyArchive (Ulm.archBytes Ulm.demoFrames) [["a"]] = some dst ∧
      dst = Ulm.archBytes (Ulm.demoFrames.map (fun f => f.filter (fun kv => !(kv.1 == "a")))) ∧
      Ulm.openReader dst = some r ∧
      Ulm.readValues r =
        some (Ulm.demoFrames.map (fun f => f.filter (fun kv => !(kv.1 == "a")))) ∧
      r.frames.length = Ulm.demoFrames.length ∧
      (∀ i : Nat, r.memAt i "a" = false) ∧
      (∀ (i : Nat) (key : String), key ≠ "a" →
        r.attrAt i key = (Ulm.demoFrames[i]?).bind (List.lookup key)) :=
  ulm_C5_copy_exclude Ulm.demoFrames (by decide) (by decide) (by decide)

/-- C6: fill overflow boundary.  Concretely, filling chunks of 1, 1 and 2
rows into a declared (4,2) array succeeds (reaching the fully filled
writer); universally, any further fill call whose chunk would exceed the
declared leading dimension fails with OverfillError, and the Python-style
fill returns the writer unchanged alongside that error. -/
theorem ulm_C6_overfill :
    (Ulm.runFills Ulm.demoEmptyPsiWriter Ulm.demoChunks = .ok Ulm.demoFullWriter) ∧
    (∀ (w : Ulm.Writer) (c : Ulm.CurArr) (chunk : List (List Int)),
      w.cur = some c → c.shape.headD 0 < c.rows.length + chunk.length →
      w.fill chunk = .error .overfill ∧ w.fillS chunk = (w, some .overfill)) := by
  refine ⟨rfl, ?_⟩
  intro w c chunk hcur hover
  exact ⟨Ulm.fill_overfill w c chunk hcur hover,
    Ulm.fillS_overfill w c chunk hcur hover⟩

/-- Witness for C6: a fourth one-row chunk on the fully filled (4,2) array
raises OverfillError and leaves the writer unchanged. -/
theorem ulm_C6_overfill_witness :
    Ulm.demoFullWriter.fill [[9, 9]] = .error .overfill ∧
    Ulm.demoFullWriter.fillS [[9, 9]] = (Ulm.demoFullWriter, some .overfill) :=
  ulm_C6_overfill.2 Ulm.demoFullWriter
    ⟨[4, 2], .int64, [[1, 1], [2, 2], [3, 3], [3, 3]]⟩ [[9, 9]] rfl (by decide)

/-- C7: lazy slicing correctness.  For every proxy obtained from a reader
frame and all bounds a ≤ b within the array's leading dimension (with the
file long enough to hold the array), the range-sliced lazy read equals the
corresponding rows of the fully materialized array:
proxy[a:b] = proxy[:][a:b]. -/
theorem ulm_C7_proxy_slice (r : Ulm.Reader) (key : String) (p : Ulm.ArrProxy)
    (hp : r.proxy key = some p) (a b : Nat) (hab : a ≤ b)
    (hbn : b ≤ p.shape.headD 0)
    (hlen : p.off + p.shape.headD 0 * (8 * Ulm.rowWidth p.shape) ≤ p.file.length) :
    p.slice a b = (p.whole).map (fun rows => (rows.drop a).take (b - a)) :=
  Ulm.proxy_slice_whole p a b hab hbn hlen

/-- Witness for C7: the psi proxy of the appended archive, sliced 0:3,
equals the first three rows of the materialized array. -/
theorem ulm_C7_proxy_slice_witness :
    Ulm.demoPsiProxy.slice 0 3 =
      (Ulm.demoPsiProxy.whole).map (fun rows => (rows.drop 0).take (3 - 0)) :=
  ulm_C7_proxy_slice Ulm.demoReader3 "psi" Ulm.demoPsiProxy rfl 0 3
    (by decide) (by decide) (by decide)

/-- C8: opening an existing archive in append mode determines the existing
frame count before any new frame is synced: the writer's nitems equals the
number of frames in the archive immediately after the append-mode open,
with the file bytes untouched and an empty buffered frame. -/
theorem ulm_C8_append_nitems (fs : List Ulm.Frame) (hwf : Ulm.wfFrames fs = true)
    (hB : (Ulm.archBytes fs).length < 18446744073709551616) :
    ∃ w : Ulm.Writer, Ulm.openAppend (Ulm.archBytes fs) = some w ∧
      w.nitems = fs.length ∧ w.data = Ulm.archBytes fs ∧
      w.buffered = [] ∧ w.cur = none := by
  refine ⟨_, Ulm.openAppend_arch fs hwf hB, rfl, rfl, rfl, rfl⟩

/-- Witness for C8: opening the three-frame fixture archive for append
gives nitems = 3. -/
theorem ulm_C8_append_nitems_witness :
    ∃ w : Ulm.Writer, Ulm.openAppend (Ulm.archBytes Ulm.demoFrames) = some w ∧
      w.nitems = 3 ∧ w.data = Ulm.archBytes Ulm.demoFrames ∧
      w.buffered = [] ∧ w.cur = none :=
  ulm_C8_append_nitems Ulm.demoFrames (by decide) (by decide)

/-- C9: FixSymmetry.adjust_positions and FixSymmetry.adjust_cell raise
AttributeError before writing their output: adjust_positions reads the
misspelled atoms.postions (line 187), adjust_cell reads the never-assigned
self.cell (line 183), so neither method ever reaches its final write (the
success path is unreachable). -/
theorem fixsym_C9_adjust_attribute_errors :
    FixSym.adjust_positions FixSym.initAttrs FixSym.atomsAttrs = .error "postions" ∧
    FixSym.adjust_cell FixSym.initAttrs FixSym.atomsAttrs = .error "cell" :=
  ⟨rfl, rfl⟩

/-- C10 counterexample: cut of the 3-character string 'abc' (longer than
length 2) at length 2 returns a 5-character result, not a 4-character one
(and not a 2-character one). -/
theorem dbcli_C10_counterexample :
    2 < (['a', 'b', 'c'] : List Char).length ∧
    (DbCli.cut ['a', 'b', 'c'] 2).length = 5 ∧
    (DbCli.cut ['a', 'b', 'c'] 2).length ≠ 4 := by
  decide

/-- C10 (amended): cut(txt, length) returns txt unchanged when
len(txt) ≤ length; for len(txt) > length ≥ 3 the result has length exactly
`length` and ends with '...'; the exact-length guarantee fails for
length < 3: e.g. cut of 'abc' at length 2 gives the 5-character 'ab...'
(the negative Python slice txt[:-1] keeps all but the last character). -/
theorem dbcli_C10_cut :
    (∀ (txt : List Char) (L : Int), (txt.length : Int) ≤ L → DbCli.cut txt L = txt) ∧
    (∀ (txt : List Char) (L : Int), 3 ≤ L → L < (txt.length : Int) →
      ((DbCli.cut txt L).length : Int) = L ∧
      (DbCli.cut txt L).drop ((DbCli.cut txt L).length - 3) = ['.', '.', '.']) ∧
    (DbCli.cut ['a', 'b', 'c'] 2 = ['a', 'b', '.', '.', '.']) := by
  refine ⟨?_, ?_, by decide⟩
  · intro txt L h
    simp only [DbCli.cut, if_pos h]
  · intro txt L h3 hlt
    have hcond : ¬ ((txt.length : Int) ≤ L) := by omega
    have hcut : DbCli.cut txt L = DbCli.pySlice txt (L - 3) ++ ['.', '.', '.'] := by
      simp only [DbCli.cut, if_neg hcond]
    have hcond2 : ¬ (L - 3 < 0) := by omega
    have hps : DbCli.pySlice txt (L - 3) = txt.take (L - 3).toNat := by
      simp only [DbCli.pySlice, if_neg hcond2]
    have htl : (txt.take (L - 3).toNat).length = (L - 3).toNat := by
      rw [List.length_take]
      omega
    constructor
    · rw [hcut, hps, List.length_append, htl]
      simp only [List.length_cons, List.length_nil]
      omega
    · rw [hcut, hps, List.length_append, htl]
      have harr : (L - 3).toNat + (['.', '.', '.'] : List Char).length - 3 =
          (txt.take (L - 3).toNat).length := by
        rw [htl]
        simp
      rw [harr, List.drop_left]

/-- Witness for C10: the fitting case returns the text unchanged, and a
5-character text cut at length 4 yields exactly 4 characters ending in
'...'. -/
theorem dbcli_C10_cut_witness :
    DbCli.cut ['a', 'b'] 5 = ['a', 'b'] ∧
    (((DbCli.cut ['a', 'b', 'c', 'd', 'e'] 4).length : Int) = 4 ∧
     (DbCli.cut ['a', 'b', 'c', 'd', 'e'] 4).drop
       ((DbCli.cut ['a', 'b', 'c', 'd', 'e'] 4).length - 3) = ['.', '.', '.']) :=
  ⟨dbcli_C10_cut.1 ['a', 'b'] 5 (by decide),
   dbcli_C10_cut.2.1 ['a', 'b', 'c', 'd', 'e'] 4 (by decide) (by decide)⟩
